import Mathlib

/-!
Verification of the sandbox-runtime policy compiler (Linux path-safety engine
in `src/sandbox/linux-sandbox-utils.ts`, plus the spec-described macOS profile
rules and shared path helpers).

Paths are modelled as Lean `String`s, exactly as the TypeScript source handles
them.  Every string operation the source performs (`split(path.sep)`,
`startsWith`, `path.dirname`, trailing-slash trimming, JS `length`) is
embedded as an explicit function on the character list backing the string, so
that the proofs can reason about them.  The host filesystem, the external
`which`/ripgrep/seccomp collaborators and `fs.mkdtempSync` are modelled as an
oracle record `Env`: the compiler is a pure function of the policy and that
oracle, which matches the source's behaviour on a filesystem that does not
mutate during compilation.
-/

set_option maxRecDepth 10000

/-- JS `string.length` (UTF-16 units; identical to the char count for the
ASCII paths handled here): the length of the backing character list. -/
def strLen (s : String) : Nat := s.data.length

/-- JS `a.startsWith(b)` as a prefix test on the backing character lists. -/
def strStartsWith (s pre : String) : Bool := pre.data.isPrefixOf s.data

/-- JS `a.includes(b)` as an infix test on the backing character lists. -/
def strIncludes (s sub : String) : Bool := decide (sub.data <:+: s.data)

/-- Split a character list at every `'/'` (the behaviour of JS
`string.split('/')`): returns the (possibly empty) pieces between slashes. -/
def splitChar : List Char → List (List Char)
  | [] => [[]]
  | c :: rest =>
    match splitChar rest with
    | [] => [[]]
    | cur :: done => if c = '/' then [] :: cur :: done else (c :: cur) :: done

/-- Join character-list pieces with `'/'` (JS `array.join('/')`). -/
def sepJoinChars : List (List Char) → List Char
  | [] => []
  | [c] => c
  | c :: rest => c ++ '/' :: sepJoinChars rest

/-- JS `path.split('/')` at the `String` level. -/
def splitSep (s : String) : List String :=
  (splitChar s.data).map (fun l => ⟨l⟩)

/-- JS `pieces.join('/')` at the `String` level. -/
def sepJoin (l : List String) : String :=
  ⟨sepJoinChars (l.map String.data)⟩

/-- The non-empty components of a path (the source's
`split(path.sep)` followed by skipping empty parts). -/
def pathComps (s : String) : List String :=
  (splitSep s).filter (fun c => c ≠ "")

/-- Rebuild an absolute path from components: `joinPath ["a","b"] = "/a/b"`,
`joinPath [] = "/"`. -/
def joinPath (cs : List String) : String :=
  "/" ++ sepJoin cs

/-- Components are well-formed: non-empty and slash-free. -/
def GoodComps (cs : List String) : Prop :=
  ∀ c ∈ cs, c ≠ "" ∧ '/' ∉ c.data

/-- A canonical absolute path: `/`-rooted, slash-separated non-empty
components, no trailing slash (the shape `normalizePathForSandbox` emits). -/
def IsCanon (p : String) : Prop :=
  ∃ cs, GoodComps cs ∧ p = joinPath cs

/-- The source's trailing-slash trim `s.replace(/\/+$/, '')` (may produce `""`
when `s` is all slashes). -/
def trimTrailingOnly (s : String) : String :=
  ⟨(s.data.reverse.dropWhile (fun c => c = '/')).reverse⟩

/-- Trailing-slash trim that keeps the root: used by the spec-modelled
normalizer-level comparisons (`path.normalize` never turns `/` into ``). -/
def trimSlashes (s : String) : String :=
  let t := trimTrailingOnly s
  if t = "" then "/" else t

/-- Node's `path.dirname` restricted to the absolute, already-normalized
paths this code base feeds it: drop everything after the final `/`, with
`dirname "/x" = "/"` and `dirname "/" = "/"`. -/
def dirnameStr (p : String) : String :=
  match p.data.reverse.dropWhile (fun c => ¬ c = '/') with
  | [] => "/"
  | _ :: rest => if rest.reverse = [] then "/" else ⟨rest.reverse⟩

/-- What `lstatSync` reports for a path (leaf examined, symlinks not
followed). -/
inductive FsNode
  | file (size : Nat)
  | dir
  | symlink
  deriving DecidableEq, Repr

/-- What `statSync` reports (symlinks fully followed, so never a symlink). -/
inductive StatNode
  | file (size : Nat)
  | dir
  deriving DecidableEq, Repr

/-- Oracle for the host filesystem and the external collaborators used by the
compiler.  `Option` results model calls that can throw (`realpathSync`,
`statSync`, `lstatSync`) or return `null` (`whichSync`, the seccomp paths);
`mkdtempName k` is the name `fs.mkdtempSync` returns for the `k`-th
invocation; `ripgrepMatches` is the relative path list the external ripgrep
scan resolves with. -/
structure Env where
  existsSync : String → Bool
  lstatSync : String → Option FsNode
  statSync : String → Option StatNode
  realpathSync : String → Option String
  readdirCount : String → Nat
  mkdtempName : Nat → String
  whichSync : String → Option String
  cwd : String
  ripgrepMatches : List String
  generateSeccompFilter : Option String
  applySeccompBinary : Option String

/-- Reference form of the deepest-existing-ancestor loop, by components:
drop trailing components until the join exists (or `/` is reached). -/
def scanExisting (env : Env) : List String → String
  | [] => "/"
  | c :: cs =>
    if env.existsSync (joinPath (c :: cs)) then joinPath (c :: cs)
    else scanExisting env (c :: cs).dropLast
  termination_by cs => cs.length
  decreasing_by simp

/-- The source's ancestor loop
(`linux-sandbox-utils.ts` lines 827-830):
`let a = path.dirname(p); while (a !== '/' && !fs.existsSync(a)) a = path.dirname(a)`.
Fuel-indexed; the callers supply enough fuel for the loop to terminate
exactly as the source's does on canonical paths. -/
def ancestorLoop (env : Env) : Nat → String → String
  | 0, a => a
  | fuel + 1, a =>
    if a = "/" then a
    else if env.existsSync a then a
    else ancestorLoop env fuel (dirnameStr a)

/-- The deepest existing ancestor of `n` (the `ancestorPath` computation of
the non-existent-deny-path branch). -/
def nearestExistingAncestor (env : Env) (n : String) : String :=
  ancestorLoop env (pathComps n).length (dirnameStr n)

/-- Fold-out of `.` and `..` components (relative steps collapse against the
accumulated absolute components). -/
def collapseDots (l : List String) : List String :=
  l.foldl (fun acc c => if c = ".." then acc.dropLast else acc ++ [c]) []

/-- Modelled from the spec: `normalizePathForSandbox` lives in
`src/sandbox/sandbox-utils.ts`, which is not part of this source snapshot.
Spec §4.1: "`normalize(p) → canonical`: makes `p` absolute against a given
working directory, collapses `.` / `..`, strips trailing `/`. Pure."  The
Linux compiler feeds it absolute paths only, so the embedding keeps the path
absolute: split on `/`, drop empty and `.` pieces, fold `..`, rejoin. -/
def normalizePathForSandbox (p : String) : String :=
  joinPath (collapseDots ((splitSep p).filter (fun c => c ≠ "" ∧ c ≠ ".")))

/-- Modelled from the spec (§3, Resolved path): the well-known host alias
pairs `/tmp ↔ /private/tmp` and `/var ↔ /private/var`, applied as a
canonicalization. -/
def canonicalAliasApply (p : String) : String :=
  if p = "/tmp" ∨ strStartsWith p "/tmp/" = true then "/private" ++ p
  else if p = "/var" ∨ strStartsWith p "/var/" = true then "/private" ++ p
  else p

/-- The top-level subtree of a path: `topLevelSubtree "/tmp/x" = "/tmp"`. -/
def topLevelSubtree (p : String) : String :=
  joinPath ((pathComps p).take 1)

/-- Modelled from the spec: `isSymlinkOutsideBoundary` lives in
`src/sandbox/sandbox-utils.ts`, not in this snapshot.  Spec §4.1
(symlink-widens): true iff any of (a) `resolved = "/"`, (b) `resolved` is an
ancestor of `input`, (c) `resolved` is at most 4 characters, (d) `resolved`
lies outside `input`'s top-level subtree — and no canonical host-alias pair
makes the two equivalent.  The unit tests of
`test-node/sandbox` (isSymlinkOutsideBoundary Unit Tests) pin the behaviour;
every one of those cases is checked below against this definition. -/
def isSymlinkOutsideBoundary (inputPath resolvedPath : String) : Bool :=
  let i := trimSlashes inputPath
  let r := trimSlashes resolvedPath
  if canonicalAliasApply i = canonicalAliasApply r then false
  else
    decide (r = "/") ||
    strStartsWith i (r ++ "/") ||
    decide (strLen r ≤ 4) ||
    !(decide (canonicalAliasApply r = topLevelSubtree (canonicalAliasApply i)) ||
      strStartsWith (canonicalAliasApply r) (topLevelSubtree (canonicalAliasApply i) ++ "/"))

/-- Modelled from the spec (§6, Fixed lists): `DANGEROUS_FILES` of
`sandbox-utils.ts` (not in this snapshot). -/
def DANGEROUS_FILES : List String :=
  [".bashrc", ".bash_profile", ".zshrc", ".zprofile", ".profile",
   ".gitconfig", ".gitmodules", ".ripgreprc", ".mcp.json"]

/-- Modelled from the spec (§6, Fixed lists): `getDangerousDirectories()` of
`sandbox-utils.ts` (not in this snapshot). -/
def getDangerousDirectories : List String :=
  [".vscode", ".idea", ".claude/commands", ".claude/agents"]

/-- Modelled from the spec: `normalizeCaseForComparison` of
`sandbox-utils.ts` canonical-cases a path segment for comparison; embedded as
lower-casing the backing characters. -/
def normalizeCaseForComparison (s : String) : String :=
  ⟨s.data.map Char.toLower⟩

/-- Modelled from the spec (§6, environment variables): `generateProxyEnvVars`
yields the HTTP- and SOCKS-proxy variables pointing at the in-sandbox
forwarder ports; the Linux caller splits each `KEY=value` string at the first
`=`, so the embedding carries the pairs directly. -/
def generateProxyEnvVars (httpPort socksPort : Nat) : List (String × String) :=
  [("HTTP_PROXY", "http://localhost:" ++ toString httpPort),
   ("HTTPS_PROXY", "http://localhost:" ++ toString httpPort),
   ("ALL_PROXY", "socks5://localhost:" ++ toString socksPort)]

/-- One bwrap command-line directive.  `Directive.render` is the exact string
run the source pushes into its argument array for it. -/
inductive Directive
  | bind (src dest : String)
  | roBind (src dest : String)
  | tmpfs (p : String)
  | dev (p : String)
  | proc (p : String)
  | unsharePid
  | unshareNet
  | newSession
  | dieWithParent
  | setenv (key value : String)
  deriving DecidableEq, Repr

def Directive.render : Directive → List String
  | .bind s d => ["--bind", s, d]
  | .roBind s d => ["--ro-bind", s, d]
  | .tmpfs p => ["--tmpfs", p]
  | .dev p => ["--dev", p]
  | .proc p => ["--proc", p]
  | .unsharePid => ["--unshare-pid"]
  | .unshareNet => ["--unshare-net"]
  | .newSession => ["--new-session"]
  | .dieWithParent => ["--die-with-parent"]
  | .setenv k v => ["--setenv", k, v]

/-- The state `generateFilesystemArgs` threads through its loops: the
directive list under construction, the surviving allowed-write roots, the
process-wide `bwrapMountPoints` registry entries added by this call, the
tempdirs acquired by `fs.mkdtempSync` for intermediate deny components, and
the count of `mkdtempSync` calls so far (naming the next tempdir). -/
structure FsArgsState where
  args : List Directive := []
  allowedWritePaths : List String := []
  mountPoints : List String := []
  tempDirs : List String := []
  tmpCounter : Nat := 0
  deriving DecidableEq, Repr

/-- The `allowedWritePaths.some(...)` containment test the source uses
(`nextPath.startsWith(allowedPath + '/') || nextPath === allowedPath`). -/
def isWithinAllowed (n : String) (allowedWritePaths : List String) : Bool :=
  allowedWritePaths.any (fun a => strStartsWith n (a ++ "/") || n = a)

/-- Loop body of `findSymlinkInPath` (`linux-sandbox-utils.ts` 112-143):
walk the components, lstat each accumulated prefix; a symlink inside an
allowed write root is returned; a missing component stops the walk. -/
def findSymlinkGo (env : Env) (allowedWritePaths : List String) :
    String → List String → Option String
  | _, [] => none
  | currentPath, part :: rest =>
    if part = "" then findSymlinkGo env allowedWritePaths currentPath rest
    else
      let nextPath := currentPath ++ "/" ++ part
      match env.lstatSync nextPath with
      | none => none
      | some k =>
        if k = FsNode.symlink then
          if isWithinAllowed nextPath allowedWritePaths then some nextPath
          else findSymlinkGo env allowedWritePaths nextPath rest
        else findSymlinkGo env allowedWritePaths nextPath rest

def findSymlinkInPath (env : Env) (targetPath : String)
    (allowedWritePaths : List String) : Option String :=
  findSymlinkGo env allowedWritePaths "" (splitSep targetPath)

/-- `hasFileAncestor` (`linux-sandbox-utils.ts` 152-173): true iff some
existing prefix is a regular file.  The source tests
`stat.isFile() || stat.isSymbolicLink()` on a `fs.statSync` result; since
`statSync` follows symlinks it never reports one, so only the file case is
live. -/
def hasFileAncestorGo (env : Env) : String → List String → Bool
  | _, [] => false
  | currentPath, part :: rest =>
    if part = "" then hasFileAncestorGo env currentPath rest
    else
      let nextPath := currentPath ++ "/" ++ part
      match env.statSync nextPath with
      | none => false
      | some (StatNode.file _) => true
      | some StatNode.dir => hasFileAncestorGo env nextPath rest

def hasFileAncestor (env : Env) (targetPath : String) : Bool :=
  hasFileAncestorGo env "" (splitSep targetPath)

/-- `findFirstNonExistentComponent` (`linux-sandbox-utils.ts` 183-197). -/
def findFirstGo (env : Env) (targetPath : String) : String → List String → String
  | _, [] => targetPath
  | currentPath, part :: rest =>
    if part = "" then findFirstGo env targetPath currentPath rest
    else
      let nextPath := currentPath ++ "/" ++ part
      if env.existsSync nextPath then findFirstGo env targetPath nextPath rest
      else nextPath

def findFirstNonExistentComponent (env : Env) (targetPath : String) : String :=
  findFirstGo env targetPath "" (splitSep targetPath)

/-- Body of the write-allow loop of `generateFilesystemArgs`
(`linux-sandbox-utils.ts` 725-773), applied to the already-normalized path:
skip `/dev/*`, skip missing, skip unresolvable, skip a resolution that
differs after trailing-slash trim and widens scope; otherwise emit
`--bind n n` and record the allowed-write root. -/
def processAllowCore (env : Env) (st : FsArgsState) (normalizedPath : String) :
    FsArgsState :=
  if strStartsWith normalizedPath "/dev/" = true then st
  else if env.existsSync normalizedPath = false then st
  else
    match env.realpathSync normalizedPath with
    | none => st
    | some resolvedPath =>
      if resolvedPath ≠ trimTrailingOnly normalizedPath ∧
          isSymlinkOutsideBoundary normalizedPath resolvedPath = true then st
      else
        { st with
          args := st.args ++ [Directive.bind normalizedPath normalizedPath],
          allowedWritePaths := st.allowedWritePaths ++ [normalizedPath] }

def processAllowPath (env : Env) (st : FsArgsState) (pathPattern : String) :
    FsArgsState :=
  processAllowCore env st (normalizePathForSandbox pathPattern)

/-- Body of the deny loop of `generateFilesystemArgs`
(`linux-sandbox-utils.ts` 786-889), applied to the already-normalized path. -/
def processDenyCore (env : Env) (st : FsArgsState) (normalizedPath : String) :
    FsArgsState :=
  if strStartsWith normalizedPath "/dev/" = true then st
  else
    match findSymlinkInPath env normalizedPath st.allowedWritePaths with
    | some symlinkInPath =>
      { st with args := st.args ++ [Directive.roBind "/dev/null" symlinkInPath] }
    | none =>
      if env.existsSync normalizedPath = false then
        if hasFileAncestor env normalizedPath = true then st
        else
          let ancestorPath := nearestExistingAncestor env normalizedPath
          if st.allowedWritePaths.any (fun allowedPath =>
              strStartsWith ancestorPath (allowedPath ++ "/") ||
              ancestorPath = allowedPath ||
              strStartsWith normalizedPath (allowedPath ++ "/")) = true then
            let firstNonExistent := findFirstNonExistentComponent env normalizedPath
            if firstNonExistent ≠ normalizedPath then
              let emptyDir := env.mkdtempName st.tmpCounter
              { st with
                args := st.args ++ [Directive.roBind emptyDir firstNonExistent],
                mountPoints := st.mountPoints ++ [firstNonExistent],
                tempDirs := st.tempDirs ++ [emptyDir],
                tmpCounter := st.tmpCounter + 1 }
            else
              { st with
                args := st.args ++ [Directive.roBind "/dev/null" firstNonExistent],
                mountPoints := st.mountPoints ++ [firstNonExistent] }
          else st
      else
        if isWithinAllowed normalizedPath st.allowedWritePaths = true then
          { st with args := st.args ++ [Directive.roBind normalizedPath normalizedPath] }
        else st

def processDenyPath (env : Env) (st : FsArgsState) (pathPattern : String) :
    FsArgsState :=
  processDenyCore env st (normalizePathForSandbox pathPattern)

/-- Body of the read-deny loop (`linux-sandbox-utils.ts` 905-921).  In the
static-filesystem model `statSync` cannot fail right after `existsSync`
succeeded, so the impossible branch is a no-op. -/
def processReadDenyCore (env : Env) (st : FsArgsState) (normalizedPath : String) :
    FsArgsState :=
  if env.existsSync normalizedPath = false then st
  else
    match env.statSync normalizedPath with
    | some StatNode.dir =>
      { st with args := st.args ++ [Directive.tmpfs normalizedPath] }
    | some (StatNode.file _) =>
      { st with args := st.args ++ [Directive.roBind "/dev/null" normalizedPath] }
    | none => st

def processReadDenyPath (env : Env) (st : FsArgsState) (pathPattern : String) :
    FsArgsState :=
  processReadDenyCore env st (normalizePathForSandbox pathPattern)

/-- `path.resolve(cwd, rel)` / `path.join(dir, rel)` for an absolute,
canonical `cwd` and a relative `rel`: concatenation with one separator. -/
def absResolve (cwd rel : String) : String := cwd ++ "/" ++ rel

/-- `new Set(...)` iteration order: first occurrences, deduplicated. -/
def dedupKeepFirst : List String → List String
  | [] => []
  | x :: xs => x :: (dedupKeepFirst xs).filter (fun y => y ≠ x)

def segmentIndexOf (segments : List String) (dirName : String) : Option Nat :=
  segments.findIdx? (fun s =>
    normalizeCaseForComparison s = normalizeCaseForComparison dirName)

/-- The `for (const dirName of [...dangerousDirectories, '.git'])` loop over
one ripgrep match (`linux-sandbox-utils.ts` 287-319): `some pushes` when some
dirName has a matching segment (`pushes` may be empty for a `.git` match that
names neither hooks nor config), `none` when no dirName matches. -/
def matchLoopDirs (m : String) (segments : List String) :
    List String → Option (List String)
  | [] => none
  | dirName :: rest =>
    match segmentIndexOf segments dirName with
    | none => matchLoopDirs m segments rest
    | some dirIndex =>
      if dirName = ".git" then
        let gitDir := sepJoin (segments.take (dirIndex + 1))
        if strIncludes m ".git/hooks" = true then some [gitDir ++ "/hooks"]
        else if strIncludes m ".git/config" = true then some [gitDir ++ "/config"]
        else some []
      else some [sepJoin (segments.take (dirIndex + 1))]

def processMatch (cwd m : String) : List String :=
  match matchLoopDirs m (splitSep (absResolve cwd m))
      (getDangerousDirectories ++ [".git"]) with
  | some pushes => pushes
  | none => [absResolve cwd m]

/-- `linuxGetMandatoryDenyPaths` (`linux-sandbox-utils.ts` 204-322): the
fixed cwd-local denies, the version-control-layout-dependent `.git` denies,
then the processed ripgrep matches, deduplicated preserving first
occurrences. The ripgrep invocation itself is the `Env.ripgrepMatches`
oracle. -/
def linuxGetMandatoryDenyPaths (env : Env) (allowGitConfig : Bool) : List String :=
  let cwd := env.cwd
  let base :=
    DANGEROUS_FILES.map (fun f => absResolve cwd f) ++
    getDangerousDirectories.map (fun d => absResolve cwd d)
  let dotGitIsDirectory : Bool := env.statSync (absResolve cwd ".git") = some StatNode.dir
  let gitPaths :=
    if dotGitIsDirectory then
      [absResolve cwd ".git/hooks"] ++
      (if allowGitConfig = false then [absResolve cwd ".git/config"] else [])
    else []
  let matchPaths := (env.ripgrepMatches.map (processMatch cwd)).flatten
  dedupKeepFirst (base ++ gitPaths ++ matchPaths)

/-- The policy schemas (from `sandbox-schemas.ts`, not in this snapshot;
shapes are fixed by every use site): `read.denyOnly`,
`write.allowOnly`/`write.denyWithinAllow`, each defaulting to `[]` where the
source writes `|| []`. -/
structure FsReadRestrictionConfig where
  denyOnly : List String
  deriving DecidableEq, Repr

structure FsWriteRestrictionConfig where
  allowOnly : List String
  denyWithinAllow : List String
  deriving DecidableEq, Repr

/-- The read-deny path list (`linux-sandbox-utils.ts` 896-903): the policy
denies plus the always-hidden `/etc/ssh/ssh_config.d` when it exists. -/
def readDenyPathsOf (env : Env) (readConfig : Option FsReadRestrictionConfig) :
    List String :=
  (match readConfig with
   | some rc => rc.denyOnly
   | none => []) ++
  (if env.existsSync "/etc/ssh/ssh_config.d" then ["/etc/ssh/ssh_config.d"] else [])

/-- `generateFilesystemArgs` (`linux-sandbox-utils.ts` 705-924). -/
def generateFilesystemArgs (env : Env) (readConfig : Option FsReadRestrictionConfig)
    (writeConfig : Option FsWriteRestrictionConfig) (allowGitConfig : Bool) :
    FsArgsState :=
  let st0 : FsArgsState := {}
  let st1 :=
    match writeConfig with
    | some wc =>
      let stA := wc.allowOnly.foldl (processAllowPath env)
        { st0 with args := [Directive.roBind "/" "/"] }
      let denyPaths := wc.denyWithinAllow ++ linuxGetMandatoryDenyPaths env allowGitConfig
      denyPaths.foldl (processDenyPath env) stA
    | none => { st0 with args := [Directive.bind "/" "/"] }
  (readDenyPathsOf env readConfig).foldl (processReadDenyPath env) st1

/-- One host-side removal performed by the reaper. -/
inductive CleanupAction
  | unlink (p : String)
  | rmdir (p : String)
  deriving DecidableEq, Repr

/-- Per-entry body of `cleanupBwrapMountPoints`
(`linux-sandbox-utils.ts` 371-398): `fs.statSync` the entry (following
symlinks, catching failures); unlink zero-byte files, rmdir empty
directories, leave anything else. -/
def cleanupActionFor (env : Env) (mountPoint : String) : Option CleanupAction :=
  match env.statSync mountPoint with
  | some (StatNode.file 0) => some (CleanupAction.unlink mountPoint)
  | some (StatNode.file _) => none
  | some StatNode.dir =>
    if env.readdirCount mountPoint = 0 then some (CleanupAction.rmdir mountPoint)
    else none
  | none => none

/-- `cleanupBwrapMountPoints`: the removal actions performed over the
registry, and the registry afterwards (`bwrapMountPoints.clear()`). -/
def cleanupBwrapMountPoints (env : Env) (registry : List String) :
    List CleanupAction × List String :=
  (registry.filterMap (cleanupActionFor env), [])

/-- The single-quote character, via its code point. -/
def sqc : String := String.singleton (Char.ofNat 39)

def isShellSafeChar (c : Char) : Bool :=
  c.isAlphanum || c = '-' || c = '_' || c = '/' || c = '.' ||
  c = ':' || c = '=' || c = ','

/-- Join with a separator (JS `array.join(sep)`). -/
def joinWith (sep : String) : List String → String
  | [] => ""
  | [x] => x
  | x :: rest => x ++ sep ++ joinWith sep rest

/-- Model of the external `shell-quote` package's `quote` on one argument:
safe tokens (flags, plain paths) pass through unchanged, anything else is
wrapped in single quotes with embedded single quotes escaped.  The proofs
rely only on two properties that hold of the real package: the rendering of
an argument is at least as long as the argument, and plain tokens such as
`bwrap` or `--bind` render as themselves. -/
def shellQuoteArg (s : String) : String :=
  if s = "" then sqc ++ sqc
  else if s.data.all isShellSafeChar then s
  else
    sqc ++ ⟨(s.data.map (fun c =>
      if c = Char.ofNat 39 then (sqc ++ "\\" ++ sqc ++ sqc).data else [c])).flatten⟩ ++ sqc

/-- `shellquote.quote(list)`: quoted arguments joined by single spaces. -/
def shellQuote (xs : List String) : String :=
  joinWith " " (xs.map shellQuoteArg)

/-- The three shell lines every network-restricted payload starts with
(`buildSandboxCommand`, `linux-sandbox-utils.ts` 596-600). -/
def socatCommands (httpSocketPath socksSocketPath : String) : List String :=
  ["socat TCP-LISTEN:3128,fork,reuseaddr UNIX-CONNECT:" ++ httpSocketPath ++
     " >/dev/null 2>&1 &",
   "socat TCP-LISTEN:1080,fork,reuseaddr UNIX-CONNECT:" ++ socksSocketPath ++
     " >/dev/null 2>&1 &",
   "trap \"kill %1 %2 2>/dev/null; exit\" EXIT"]

/-- The writable-bind replication loop of the inner (nested) bwrap
(`buildSandboxCommand`, `linux-sandbox-utils.ts` 656-665): skip `/dev` and
its descendants, re-check existence, emit `--bind p p`. -/
def innerReplayDirectives (env : Env) (writablePaths : List String) :
    List Directive :=
  writablePaths.foldl (fun acc p =>
    if strStartsWith p "/dev/" = true ∨ p = "/dev" then acc
    else if env.existsSync p then acc ++ [Directive.bind p p]
    else acc) []

/-- `buildSandboxCommand` (`linux-sandbox-utils.ts` 586-700). -/
def buildSandboxCommand (env : Env) (httpSocketPath socksSocketPath userCommand : String)
    (seccompFilterPath : Option String) (shell : String)
    (writablePaths : List String) : String :=
  let shellPath := shell
  match seccompFilterPath with
  | some fp =>
    let innerBwrapArgs :=
      ["bwrap", "--unshare-all", "--share-net", "--ro-bind", "/", "/"] ++
      (innerReplayDirectives env writablePaths).flatMap Directive.render ++
      ["--dev", "/dev", "--seccomp", "3", "--", shellPath, "-c", userCommand]
    let innerBwrapCmd := shellQuote innerBwrapArgs
    let innerScript := joinWith "\n"
      (socatCommands httpSocketPath socksSocketPath ++
       ["sleep 0.1", "exec 3< " ++ shellQuote [fp], innerBwrapCmd])
    shellPath ++ " -c " ++ shellQuote [innerScript]
  | none =>
    let innerScript := joinWith "\n"
      (socatCommands httpSocketPath socksSocketPath ++
       ["eval " ++ shellQuote [userCommand]])
    shellPath ++ " -c " ++ shellQuote [innerScript]

/-- The writable-path list the orchestrator forwards to the nested stage
(`wrapCommandWithSandboxLinux`, `linux-sandbox-utils.ts` 1175-1177):
`(writeConfig?.allowOnly ?? []).map(normalizePathForSandbox).filter(existsSync)`. -/
def wrapWritablePaths (env : Env) (writeConfig : Option FsWriteRestrictionConfig) :
    List String :=
  (((writeConfig.map FsWriteRestrictionConfig.allowOnly).getD []).map
    normalizePathForSandbox).filter env.existsSync

/-- The caller-facing parameter record of `wrapCommandWithSandboxLinux`
(`LinuxSandboxParams`), restricted to the fields the function reads. -/
structure LinuxSandboxParams where
  command : String
  needsNetworkRestriction : Bool
  httpSocketPath : Option String := none
  socksSocketPath : Option String := none
  httpProxyPort : Option Nat := none
  socksProxyPort : Option Nat := none
  readConfig : Option FsReadRestrictionConfig := none
  writeConfig : Option FsWriteRestrictionConfig := none
  enableWeakerNestedSandbox : Bool := false
  allowAllUnixSockets : Bool := false
  binShell : Option String := none
  allowGitConfig : Bool := false
  deriving DecidableEq, Repr

/-- The result of a successful compilation: the composite command string and
the process-wide registry entries this call added (mount points, acquired
tempdirs, runtime-generated seccomp filters tracked for exit cleanup). -/
structure WrapOutput where
  cmd : String
  mountPoints : List String
  tempDirs : List String
  generatedSeccompFilters : List String
  deriving DecidableEq, Repr

/-- The seccomp filter chosen by `wrapCommandWithSandboxLinux`
(`linux-sandbox-utils.ts` 1030-1062): skipped entirely when
`allowAllUnixSockets`; cleared (with a warning) when either the filter or
the apply binary is unavailable. -/
def seccompFilterPathOf (env : Env) (params : LinuxSandboxParams) : Option String :=
  if !params.allowAllUnixSockets then
    match env.generateSeccompFilter, env.applySeccompBinary with
    | some f, some _ => some f
    | _, _ => none
  else none

/-- The entries added to the process-wide `generatedSeccompFilters` registry
(`linux-sandbox-utils.ts` 1047-1052): only runtime-generated filters, never
the pre-built vendor ones. -/
def filtersOf (env : Env) (params : LinuxSandboxParams) : List String :=
  match seccompFilterPathOf env params with
  | some f => if strIncludes f "/vendor/seccomp/" = true then [] else [f]
  | none => []

/-- The network-restriction directives, or the bridge-socket error
(`linux-sandbox-utils.ts` 1064-1126). -/
def netArgsOf (env : Env) (params : LinuxSandboxParams) :
    Except String (List Directive) :=
  if params.needsNetworkRestriction then
    match params.httpSocketPath, params.socksSocketPath with
    | some hp, some sp =>
      if env.existsSync hp = false then
        Except.error ("Linux HTTP bridge socket does not exist: " ++ hp ++
          ". The bridge process may have died. Try reinitializing the sandbox.")
      else if env.existsSync sp = false then
        Except.error ("Linux SOCKS bridge socket does not exist: " ++ sp ++
          ". The bridge process may have died. Try reinitializing the sandbox.")
      else
        Except.ok
          ([Directive.unshareNet, Directive.bind hp hp, Directive.bind sp sp] ++
           (generateProxyEnvVars 3128 1080).map (fun kv => Directive.setenv kv.1 kv.2) ++
           (match params.httpProxyPort with
            | some hpp => [Directive.setenv "CLAUDE_CODE_HOST_HTTP_PROXY_PORT" (toString hpp)]
            | none => []) ++
           (match params.socksProxyPort with
            | some spp => [Directive.setenv "CLAUDE_CODE_HOST_SOCKS_PROXY_PORT" (toString spp)]
            | none => []))
    | _, _ => Except.ok [Directive.unshareNet]
  else Except.ok []

/-- The payload handed to the resolved shell
(`linux-sandbox-utils.ts` 1165-1211): the nested-sandbox script when a
network bridge is in play, the apply-seccomp invocation when only a filter
is, and the raw command otherwise. -/
def payloadOf (env : Env) (params : LinuxSandboxParams) (shell : String) :
    Except String String :=
  match params.needsNetworkRestriction, params.httpSocketPath,
      params.socksSocketPath with
  | true, some hp, some sp =>
    Except.ok (buildSandboxCommand env hp sp params.command
      (seccompFilterPathOf env params) shell (wrapWritablePaths env params.writeConfig))
  | _, _, _ =>
    match seccompFilterPathOf env params with
    | some f =>
      match env.applySeccompBinary with
      | none =>
        Except.error ("apply-seccomp binary not found. This should have been " ++
          "caught earlier. Ensure vendor seccomp binaries are included in the package.")
      | some applyBin =>
        Except.ok (shellQuote [applyBin, f, shell, "-c", params.command])
    | none => Except.ok params.command

/-- The short-circuit test (`linux-sandbox-utils.ts` 1006-1019): no network
restriction, no read-deny entries, no write config at all. -/
def noRestrictions (params : LinuxSandboxParams) : Bool :=
  let hasReadRestrictions : Bool :=
    match params.readConfig with
    | some rc => rc.denyOnly ≠ []
    | none => false
  !params.needsNetworkRestriction && !hasReadRestrictions && !params.writeConfig.isSome

/-- `wrapCommandWithSandboxLinux` (`linux-sandbox-utils.ts` 984-1243).
Thrown `Error`s are `Except.error` with the thrown message. -/
def wrapCommandWithSandboxLinux (env : Env) (params : LinuxSandboxParams) :
    Except String WrapOutput :=
  if noRestrictions params then
    Except.ok
      { cmd := params.command, mountPoints := [], tempDirs := [],
        generatedSeccompFilters := [] }
  else
    match netArgsOf env params with
    | Except.error e => Except.error e
    | Except.ok net =>
      let fsSt := generateFilesystemArgs env params.readConfig params.writeConfig
        params.allowGitConfig
      let shellName := params.binShell.getD "bash"
      match env.whichSync shellName with
      | none =>
        Except.error ("Shell " ++ sqc ++ shellName ++ sqc ++ " not found in PATH")
      | some shell =>
        match payloadOf env params shell with
        | Except.error e => Except.error e
        | Except.ok pay =>
          let allDirectives :=
            [Directive.newSession, Directive.dieWithParent] ++ net ++ fsSt.args ++
            [Directive.dev "/dev", Directive.unsharePid] ++
            (if !params.enableWeakerNestedSandbox then [Directive.proc "/proc"] else [])
          Except.ok
            { cmd := shellQuote ("bwrap" ::
                (allDirectives.flatMap Directive.render ++ ["--", shell, "-c", pay])),
              mountPoints := fsSt.mountPoints,
              tempDirs := fsSt.tempDirs,
              generatedSeccompFilters := filtersOf env params }

/-- One macOS seatbelt profile rule of the read-deny family. -/
inductive SbRule
  | readDeny (pattern : String)
  | unlinkDeny (path : String)
  deriving DecidableEq, Repr

/-- A pattern is a glob iff it contains a wildcard (spec §3; escaping does
not occur in the paths this development handles). -/
def hasWildcard (p : String) : Bool :=
  p.data.any (fun c => c = '*' || c = '?')

/-- The literal base of a glob pattern: the longest leading run of
wildcard-free components (spec §3); a non-glob is its own base. -/
def globBase (p : String) : String :=
  if hasWildcard p then
    joinPath ((pathComps p).takeWhile (fun c => !hasWildcard c))
  else p

/-- The chain from a path up to the root: the path itself, every ancestor
directory, and `/`. -/
def ancestorChainOf (p : String) : List String :=
  let cs := pathComps p
  (List.range (cs.length + 1)).map (fun k => joinPath (cs.take (cs.length - k)))

/-- Modelled from the spec: the read-deny rule family of the macOS policy
compiler (`macos-sandbox-utils.ts` is not in this source snapshot).  Spec
§4.4: "For read-denied paths: emit a `file-read*` deny rule (literal or glob
form), and additionally emit `file-write-unlink` deny rules on the path
itself and every ancestor directory up to `/`. ... Glob patterns contribute
ancestors derived from the pattern's literal base."  Each deny entry goes
through the normalizer first (§4.1 applies it to every user-supplied path;
glob components survive it unchanged). -/
def macReadDenyRules (denyOnly : List String) : List SbRule :=
  denyOnly.flatMap (fun d =>
    let nd := normalizePathForSandbox d
    SbRule.readDeny nd :: (ancestorChainOf (globBase nd)).map SbRule.unlinkDeny)

/-- Whether the source's allow-loop skips this normalized path as a
scope-widening symlink (the condition of claim C1). -/
def widenSkip (env : Env) (n : String) : Bool :=
  match env.realpathSync n with
  | some r => decide (r ≠ trimTrailingOnly n) && isSymlinkOutsideBoundary n r
  | none => false

/-- Whether the source's allow-loop emits a bind for this normalized path:
not under `/dev/`, exists, resolvable, and not a trailing-slash-trimmed
mismatch that widens scope. -/
def allowPasses (env : Env) (n : String) : Bool :=
  !(strStartsWith n "/dev/") && env.existsSync n &&
  (env.realpathSync n).isSome && !widenSkip env n

def envC1 : Env :=
  { existsSync := fun q => q = "/tmp/claude",
    lstatSync := fun _ => none,
    statSync := fun _ => none,
    realpathSync := fun q => if q = "/tmp/claude" then some "/" else none,
    readdirCount := fun _ => 0,
    mkdtempName := fun k => "/tmp/claude-empty-" ++ toString k,
    whichSync := fun _ => some "/bin/bash",
    cwd := "/repo",
    ripgrepMatches := [],
    generateSeccompFilter := none,
    applySeccompBinary := none }

def wcC1 : FsWriteRestrictionConfig :=
  { allowOnly := ["/tmp/claude"], denyWithinAllow := [] }

def stC3 : FsArgsState :=
  { args := [], allowedWritePaths := ["/w"], mountPoints := [], tempDirs := [],
    tmpCounter := 0 }

def envC3 : Env :=
  { existsSync := fun q => q = "/w" ∨ q = "/w/link" ∨ q = "/w/real",
    lstatSync := fun q =>
      if q = "/w" then some FsNode.dir
      else if q = "/w/link" then some FsNode.symlink
      else if q = "/w/real" then some FsNode.dir
      else none,
    statSync := fun q =>
      if q = "/w" ∨ q = "/w/link" ∨ q = "/w/real" then some StatNode.dir else none,
    realpathSync := fun _ => none,
    readdirCount := fun _ => 0,
    mkdtempName := fun k => "/tmp/claude-empty-" ++ toString k,
    whichSync := fun _ => some "/bin/bash",
    cwd := "/repo",
    ripgrepMatches := [],
    generateSeccompFilter := none,
    applySeccompBinary := none }

def envC3b : Env :=
  { envC3 with
    lstatSync := fun q =>
      if q = "/w" ∨ q = "/w/link" ∨ q = "/w/real" then some FsNode.dir else none }

def envC7 : Env :=
  { existsSync := fun q => q = "/g/.bashrc" ∨ q = "/g/target",
    lstatSync := fun q =>
      if q = "/g/.bashrc" then some FsNode.symlink
      else if q = "/g/target" then some (FsNode.file 0)
      else none,
    statSync := fun q =>
      if q = "/g/.bashrc" ∨ q = "/g/target" then some (StatNode.file 0) else none,
    realpathSync := fun _ => none,
    readdirCount := fun _ => 0,
    mkdtempName := fun k => "/tmp/claude-empty-" ++ toString k,
    whichSync := fun _ => some "/bin/bash",
    cwd := "/repo",
    ripgrepMatches := [],
    generateSeccompFilter := none,
    applySeccompBinary := none }

/-- The resource-pairing invariant over the compiler state: every acquired
tempdir has a bind directive onto some registered mount point. -/
def TempPaired (st : FsArgsState) : Prop :=
  ∀ t ∈ st.tempDirs, ∃ c, Directive.roBind t c ∈ st.args ∧ c ∈ st.mountPoints

def wcC8 : FsWriteRestrictionConfig :=
  { allowOnly := ["/w"], denyWithinAllow := ["/w/a/b"] }

def envC8 : Env :=
  { existsSync := fun q => q = "/w",
    lstatSync := fun q => if q = "/w" then some FsNode.dir else none,
    statSync := fun q => if q = "/w" then some StatNode.dir else none,
    realpathSync := fun q => if q = "/w" then some "/w" else none,
    readdirCount := fun _ => 0,
    mkdtempName := fun k => "/tmp/claude-empty-" ++ toString k,
    whichSync := fun _ => some "/bin/bash",
    cwd := "/repo",
    ripgrepMatches := [],
    generateSeccompFilter := none,
    applySeccompBinary := none }

def envC8b : Env :=
  { envC8 with
    statSync := fun q =>
      if q = "/w" ∨ q = "/w/a" ∨ q = "/tmp/claude-empty-0" then some StatNode.dir
      else none }

def envC8f : Env :=
  { envC8 with
    generateSeccompFilter := some "/tmp/sc.bpf",
    applySeccompBinary := some "/usr/bin/apply-seccomp" }

def paramsC8 : LinuxSandboxParams :=
  { command := "echo hi", needsNetworkRestriction := false,
    writeConfig := some wcC8 }

def outC8 : WrapOutput :=
  (wrapCommandWithSandboxLinux envC8f paramsC8).toOption.getD
    { cmd := "", mountPoints := [], tempDirs := [], generatedSeccompFilters := [] }

def envC5sh : Env := { envC8 with whichSync := fun _ => none }

def envC6 : Env :=
  { envC1 with
    existsSync := fun q =>
      q = "/tmp/claude" ∨ q = "/run/h.sock" ∨ q = "/run/s.sock",
    generateSeccompFilter := some "/tmp/sc.bpf",
    applySeccompBinary := some "/usr/bin/apply-seccomp" }

def envC4 : Env :=
  { existsSync := fun _ => false,
    lstatSync := fun _ => none,
    statSync := fun q =>
      if q = "/repo/.git" ∨ q = "/repo/sub/.git" then some StatNode.dir else none,
    realpathSync := fun _ => none,
    readdirCount := fun _ => 0,
    mkdtempName := fun k => "/tmp/claude-empty-" ++ toString k,
    whichSync := fun _ => some "/bin/bash",
    cwd := "/repo",
    ripgrepMatches := ["sub/.git/hooks/pre-commit"],
    generateSeccompFilter := none,
    applySeccompBinary := none }

def envC4b : Env :=
  { envC4 with statSync := fun _ => none, ripgrepMatches := ["a/.bashrc"] }

/-- One removal performed by the process-exit handler. -/
inductive ExitAction
  | removeFilter (p : String)
  | mount (a : CleanupAction)
  deriving DecidableEq, Repr

/-- The process-exit handler installed by `registerExitCleanupHandler`
(`linux-sandbox-utils.ts` 338-355): call `cleanupSeccompFilter` on every
entry of the generated-filter registry (failures swallowed), then run
`cleanupBwrapMountPoints`.  Returns the removals attempted and the
mount-point registry it leaves behind. -/
def processExitCleanup (env : Env) (filters : List String)
    (mountRegistry : List String) : List ExitAction × List String :=
  (filters.map ExitAction.removeFilter ++
     (cleanupBwrapMountPoints env mountRegistry).1.map ExitAction.mount,
   (cleanupBwrapMountPoints env mountRegistry).2)

theorem splitChar_ne_nil (l : List Char) : splitChar l ≠ [] := by
  cases l with
  | nil => simp [splitChar]
  | cons c rest =>
    simp only [splitChar]
    cases h : splitChar rest with
    | nil => simp
    | cons cur done => by_cases hc : c = '/' <;> simp [hc]

theorem splitChar_cons_slash (l : List Char) :
    splitChar ('/' :: l) = [] :: splitChar l := by
  simp only [splitChar]
  cases h : splitChar l with
  | nil => exact absurd h (splitChar_ne_nil l)
  | cons cur done => simp

theorem splitChar_cons_ne (c : Char) (l : List Char) (hc : c ≠ '/')
    (cur : List Char) (done : List (List Char)) (h : splitChar l = cur :: done) :
    splitChar (c :: l) = (c :: cur) :: done := by
  simp only [splitChar, h]
  rw [if_neg hc]

theorem splitChar_append_slash (x y : List Char) :
    splitChar (x ++ '/' :: y) = splitChar x ++ splitChar y := by
  induction x with
  | nil =>
    simp only [List.nil_append]
    rw [splitChar_cons_slash]
    rfl
  | cons c rest ih =>
    by_cases hc : c = '/'
    · subst hc
      rw [List.cons_append, splitChar_cons_slash, splitChar_cons_slash, ih]
      rfl
    · cases h : splitChar rest with
      | nil => exact absurd h (splitChar_ne_nil rest)
      | cons cur done =>
        have h2 : splitChar (rest ++ '/' :: y) = cur :: (done ++ splitChar y) := by
          rw [ih, h]; rfl
        rw [List.cons_append, splitChar_cons_ne c _ hc _ _ h2,
            splitChar_cons_ne c _ hc _ _ h]
        rfl

theorem splitChar_no_slash_mem (x : List Char) :
    ∀ p ∈ splitChar x, '/' ∉ p := by
  induction x with
  | nil => simp [splitChar]
  | cons c rest ih =>
    by_cases hc : c = '/'
    · subst hc
      rw [splitChar_cons_slash]
      intro p hp
      rcases List.mem_cons.mp hp with h | h
      · subst h; simp
      · exact ih p h
    · cases h : splitChar rest with
      | nil => exact absurd h (splitChar_ne_nil rest)
      | cons cur done =>
        rw [splitChar_cons_ne c _ hc _ _ h]
        intro p hp
        rcases List.mem_cons.mp hp with h1 | h1
        · subst h1
          intro hmem
          rcases List.mem_cons.mp hmem with h2 | h2
          · exact hc h2.symm
          · exact ih cur (h ▸ List.mem_cons_self cur done) h2
        · exact ih p (h ▸ List.mem_cons_of_mem cur h1)

theorem sepJoinChars_cons (c : List Char) (rest : List (List Char)) (h : rest ≠ []) :
    sepJoinChars (c :: rest) = c ++ '/' :: sepJoinChars rest := by
  cases rest with
  | nil => exact absurd rfl h
  | cons d ds => rfl

theorem sepJoinChars_splitChar (x : List Char) :
    sepJoinChars (splitChar x) = x := by
  induction x with
  | nil => rfl
  | cons c rest ih =>
    by_cases hc : c = '/'
    · subst hc
      rw [splitChar_cons_slash,
          sepJoinChars_cons _ _ (splitChar_ne_nil rest), ih]
      rfl
    · cases h : splitChar rest with
      | nil => exact absurd h (splitChar_ne_nil rest)
      | cons cur done =>
        rw [splitChar_cons_ne c _ hc _ _ h]
        rw [h] at ih
        cases done with
        | nil => simpa [sepJoinChars] using congrArg (c :: ·) ih
        | cons e es =>
          rw [sepJoinChars_cons _ _ (by simp)]
          rw [sepJoinChars_cons _ _ (by simp)] at ih
          simp [← ih]

theorem splitChar_no_slash (x : List Char) (h : '/' ∉ x) :
    splitChar x = [x] := by
  induction x with
  | nil => rfl
  | cons c rest ih =>
    have hc : c ≠ '/' := fun hh => h (hh ▸ List.mem_cons_self c rest)
    have hr : splitChar rest = [rest] :=
      ih (fun hm => h (List.mem_cons_of_mem c hm))
    rw [splitChar_cons_ne c _ hc _ _ hr]

theorem splitChar_sepJoinChars (l : List (List Char)) (hne : l ≠ [])
    (hsf : ∀ p ∈ l, '/' ∉ p) :
    splitChar (sepJoinChars l) = l := by
  induction l with
  | nil => exact absurd rfl hne
  | cons c rest ih =>
    cases rest with
    | nil => exact splitChar_no_slash c (hsf c (List.mem_cons_self c []))
    | cons d ds =>
      rw [sepJoinChars_cons _ _ (by simp), splitChar_append_slash,
          splitChar_no_slash c (hsf c (List.mem_cons_self c _)),
          ih (by simp) (fun p hp => hsf p (List.mem_cons_of_mem c hp))]
      rfl

theorem string_data_append (a b : String) : (a ++ b).data = a.data ++ b.data :=
  rfl

theorem string_mk_data (s : String) : (⟨s.data⟩ : String) = s := rfl

theorem sepJoin_splitSep (s : String) : sepJoin (splitSep s) = s := by
  unfold sepJoin splitSep
  rw [List.map_map]
  have : (String.data ∘ fun l => (⟨l⟩ : String)) = id := by
    funext l; rfl
  rw [this, List.map_id, sepJoinChars_splitChar]

theorem splitSep_sepJoin (l : List String) (hne : l ≠ [])
    (hsf : ∀ p ∈ l, '/' ∉ p.data) :
    splitSep (sepJoin l) = l := by
  unfold sepJoin splitSep
  rw [splitChar_sepJoinChars (l.map String.data)
        (by simpa using hne)
        (by intro p hp
            rcases List.mem_map.mp hp with ⟨q, hq, rfl⟩
            exact hsf q hq)]
  rw [List.map_map]
  have : ((fun l => (⟨l⟩ : String)) ∘ String.data) = id := by
    funext q; cases q; rfl
  rw [this, List.map_id]

theorem joinPath_data (cs : List String) :
    (joinPath cs).data = '/' :: sepJoinChars (cs.map String.data) := rfl

theorem joinPath_nil : joinPath [] = "/" := rfl

theorem pathComps_joinPath (cs : List String) (h : GoodComps cs) :
    pathComps (joinPath cs) = cs := by
  cases cs with
  | nil => rfl
  | cons c rest =>
    unfold pathComps splitSep
    rw [joinPath_data, splitChar_cons_slash,
        splitChar_sepJoinChars ((c :: rest).map String.data) (by simp)
          (by intro p hp
              rcases List.mem_map.mp hp with ⟨q, hq, rfl⟩
              exact (h q hq).2)]
    rw [List.map_cons, List.map_map]
    have hcomp : ((fun l => (⟨l⟩ : String)) ∘ String.data) = id := by
      funext q; cases q; rfl
    rw [hcomp, List.map_id]
    have hemp : (⟨[]⟩ : String) = "" := rfl
    rw [hemp]
    have hfil : ∀ l : List String, (∀ q ∈ l, q ≠ "") →
        List.filter (fun q => q ≠ "") l = l := by
      intro l hl
      apply List.filter_eq_self.mpr
      intro q hq
      simpa using hl q hq
    have h1 : List.filter (fun q : String => q ≠ "") ("" :: c :: rest)
        = List.filter (fun q : String => q ≠ "") (c :: rest) := by simp
    rw [h1]
    exact hfil (c :: rest) (fun q hq => (h q hq).1)

theorem sepJoin_cons (c : String) (rest : List String) (h : rest ≠ []) :
    sepJoin (c :: rest) = c ++ "/" ++ sepJoin rest := by
  unfold sepJoin
  have : ((c :: rest).map String.data) = c.data :: rest.map String.data := rfl
  rw [this, sepJoinChars_cons _ _ (by simpa using h)]
  apply String.ext
  simp [string_data_append]

theorem sepJoinChars_append (l₁ l₂ : List (List Char)) (h₁ : l₁ ≠ []) (h₂ : l₂ ≠ []) :
    sepJoinChars (l₁ ++ l₂) = sepJoinChars l₁ ++ '/' :: sepJoinChars l₂ := by
  induction l₁ with
  | nil => exact absurd rfl h₁
  | cons c rest ih =>
    cases rest with
    | nil =>
      rw [List.singleton_append, sepJoinChars_cons _ _ h₂]
      rfl
    | cons d es =>
      rw [List.cons_append, sepJoinChars_cons _ _ (by simp),
          sepJoinChars_cons _ _ (by simp), ih (by simp)]
      simp

theorem joinPath_append (cs ds : List String) (hcs : cs ≠ []) (hds : ds ≠ []) :
    joinPath (cs ++ ds) = joinPath cs ++ "/" ++ sepJoin ds := by
  apply String.ext
  show ('/' :: sepJoinChars ((cs ++ ds).map String.data)) = _
  rw [string_data_append, string_data_append, joinPath_data, List.map_append,
      sepJoinChars_append _ _ (by simpa using hcs) (by simpa using hds)]
  simp [sepJoin]

/-- `joinPath` of non-empty components never equals the root `"/"`. -/
theorem joinPath_ne_root (cs : List String) (h : GoodComps cs) (hne : cs ≠ []) :
    joinPath cs ≠ "/" := by
  cases cs with
  | nil => exact absurd rfl hne
  | cons c rest =>
    intro heq
    have hdata := congrArg String.data heq
    rw [joinPath_data] at hdata
    have : sepJoinChars ((c :: rest).map String.data) = [] := by
      have : '/' :: sepJoinChars ((c :: rest).map String.data) = ['/'] := hdata
      simpa using this
    have hc1 : c.data ≠ [] := by
      intro hcd
      apply (h c (List.mem_cons_self c rest)).1
      cases c
      simp only at hcd
      subst hcd
      rfl
    cases rest with
    | nil => exact hc1 this
    | cons d ds =>
      rw [List.map_cons, List.map_cons, sepJoinChars_cons _ _ (by simp)] at this
      simp at this

theorem dropWhile_append_of_all {p : Char → Bool} (a b : List Char)
    (h : ∀ c ∈ a, p c = true) :
    List.dropWhile p (a ++ b) = List.dropWhile p b := by
  induction a with
  | nil => rfl
  | cons c rest ih =>
    rw [List.cons_append, List.dropWhile_cons_of_pos (h c (List.mem_cons_self c rest))]
    exact ih (fun d hd => h d (List.mem_cons_of_mem c hd))

theorem dirnameStr_concat (s t : List Char) (_ht : t ≠ []) (hsf : '/' ∉ t) :
    dirnameStr ⟨s ++ '/' :: t⟩ = if s = [] then "/" else ⟨s⟩ := by
  unfold dirnameStr
  have hrev : (s ++ '/' :: t).reverse = t.reverse ++ '/' :: s.reverse := by
    simp
  simp only [hrev]
  rw [dropWhile_append_of_all t.reverse ('/' :: s.reverse)
      (by intro c hc
          simp only [decide_eq_true_eq]
          intro hcc
          exact hsf (hcc ▸ List.mem_reverse.mp hc))]
  rw [List.dropWhile_cons_of_neg (by simp)]
  show (if s.reverse.reverse = [] then "/" else ⟨s.reverse.reverse⟩) = _
  simp only [List.reverse_reverse]

theorem dirnameStr_joinPath (cs : List String) (c : String)
    (h : GoodComps (cs ++ [c])) :
    dirnameStr (joinPath (cs ++ [c])) = joinPath cs := by
  have hc := h c (by simp)
  have hcne : c.data ≠ [] := by
    intro hcd
    exact hc.1 (by cases c; simp only at hcd; subst hcd; rfl)
  cases cs with
  | nil =>
    simp only [List.nil_append]
    have : joinPath [c] = ⟨[] ++ '/' :: c.data⟩ := by
      apply String.ext
      simp [joinPath_data, sepJoinChars]
    rw [this, dirnameStr_concat [] c.data hcne hc.2]
    rfl
  | cons d ds =>
    rw [joinPath_append (d :: ds) [c] (by simp) (by simp)]
    have hdat : joinPath (d :: ds) ++ "/" ++ sepJoin [c]
        = ⟨(joinPath (d :: ds)).data ++ '/' :: c.data⟩ := by
      apply String.ext
      simp [string_data_append, sepJoin, sepJoinChars]
    rw [hdat, dirnameStr_concat _ c.data hcne hc.2]
    have : (joinPath (d :: ds)).data ≠ [] := by
      rw [joinPath_data]; simp
    rw [if_neg this]

theorem strStartsWith_iff (s pre : String) :
    strStartsWith s pre = true ↔ pre.data <+: s.data := by
  unfold strStartsWith
  exact List.isPrefixOf_iff_prefix

theorem strStartsWith_append_slash (a x : String) :
    strStartsWith (a ++ "/" ++ x) (a ++ "/") = true := by
  rw [strStartsWith_iff, string_data_append]
  exact List.prefix_append _ _

/-- Splitting a slash-terminated prefix off a piece: if `m ++ "/"` is a prefix
of `c ++ "/" ++ s` with `c` slash-free, then either `m = c`, or `m` extends
past `c` and the remainder is a slash-terminated prefix of `s`. -/
theorem piece_prefix (c : List Char) (hsf : '/' ∉ c) :
    ∀ (m s : List Char), (m ++ ['/']) <+: (c ++ '/' :: s) →
      m = c ∨ ∃ m2, m = c ++ '/' :: m2 ∧ (m2 ++ ['/']) <+: s := by
  induction c with
  | nil =>
    intro m s hpre
    cases m with
    | nil => exact Or.inl rfl
    | cons x m1 =>
      obtain ⟨t, ht⟩ := hpre
      simp only [List.nil_append, List.cons_append, List.append_assoc] at ht
      injection ht with hx hrest
      subst hx
      refine Or.inr ⟨m1, rfl, ?_⟩
      exact ⟨t, by simpa [List.append_assoc] using hrest⟩
  | cons ch c1 ih =>
    intro m s hpre
    have hch : ch ≠ '/' := fun hh => hsf (hh ▸ List.mem_cons_self ch c1)
    cases m with
    | nil =>
      obtain ⟨t, ht⟩ := hpre
      simp only [List.nil_append, List.cons_append] at ht
      injection ht with hx _
      exact absurd hx.symm hch
    | cons x m1 =>
      obtain ⟨t, ht⟩ := hpre
      simp only [List.cons_append, List.append_assoc] at ht
      injection ht with hx hrest
      subst hx
      have hrest2 : (m1 ++ ['/']) <+: (c1 ++ '/' :: s) :=
        ⟨t, by simpa [List.append_assoc] using hrest⟩
      rcases ih (fun hm => hsf (List.mem_cons_of_mem _ hm)) m1 s hrest2 with h | ⟨m2, hm2, hp⟩
      · subst h; exact Or.inl rfl
      · subst hm2; exact Or.inr ⟨m2, rfl, hp⟩

/-- A slash-terminated prefix of a slash-joined list of slash-free pieces is
itself the join of an initial segment of the pieces. -/
theorem sep_prefix (l : List (List Char)) (hsf : ∀ p ∈ l, '/' ∉ p) :
    ∀ m : List Char, (m ++ ['/']) <+: sepJoinChars l →
      ∃ k, 0 < k ∧ k ≤ l.length ∧ m = sepJoinChars (l.take k) := by
  induction l with
  | nil =>
    intro m hpre
    have := List.prefix_nil.mp hpre
    simp at this
  | cons c rest ih =>
    intro m hpre
    cases rest with
    | nil =>
      exfalso
      apply hsf c (List.mem_cons_self c [])
      have hmem : '/' ∈ m ++ ['/'] := by simp
      exact hpre.subset hmem
    | cons d ds =>
      rw [sepJoinChars_cons _ _ (by simp)] at hpre
      rcases piece_prefix c (hsf c (List.mem_cons_self c _)) m _ hpre with h | ⟨m2, hm2, hp⟩
      · exact ⟨1, by omega, by simp, by simpa [sepJoinChars] using h⟩
      · rcases ih (fun p hp2 => hsf p (List.mem_cons_of_mem c hp2)) m2 hp with
          ⟨k, hk0, hkle, hkeq⟩
        refine ⟨k + 1, by omega, by simpa using Nat.succ_le_succ hkle, ?_⟩
        have htk : (d :: ds).take k ≠ [] := by
          cases k with
          | zero => omega
          | succ k2 => simp
        rw [List.take_succ_cons, sepJoinChars_cons _ _ htk, ← hkeq, hm2]

/-- A `/`-rooted, slash-terminated prefix of a canonical path is the join of
an initial segment of its components. -/
theorem canon_prefix_decomp (cs : List String) (h : GoodComps cs) (a : String)
    (hpre : strStartsWith (joinPath cs) (a ++ "/") = true)
    (ha : strStartsWith a "/" = true) :
    ∃ k, 0 < k ∧ k ≤ cs.length ∧ a = joinPath (cs.take k) := by
  rw [strStartsWith_iff] at hpre ha
  obtain ⟨m, hm⟩ := ha
  have hadata : a.data = '/' :: m := by simpa using hm.symm
  have hpre2 : (m ++ ['/']) <+: sepJoinChars (cs.map String.data) := by
    have : (a ++ "/").data = '/' :: (m ++ ['/']) := by
      rw [string_data_append, hadata]; rfl
    rw [this, joinPath_data] at hpre
    exact (List.cons_prefix_cons.mp hpre).2
  obtain ⟨k, hk0, hkle, hkeq⟩ := sep_prefix (cs.map String.data)
    (by intro p hp
        rcases List.mem_map.mp hp with ⟨q, hq, rfl⟩
        exact (h q hq).2) m hpre2
  refine ⟨k, hk0, by simpa using hkle, ?_⟩
  apply String.ext
  rw [hadata, joinPath_data, hkeq]
  congr 2
  simp [List.map_take]

theorem dropLast_append_left (ca ds : List String) (h : ds ≠ []) :
    (ca ++ ds).dropLast = ca ++ ds.dropLast := by
  obtain ⟨e, ds2, rfl⟩ : ∃ e ds2, ds = ds2 ++ [e] :=
    ⟨ds.getLast h, ds.dropLast, (List.dropLast_append_getLast h).symm⟩
  rw [← List.append_assoc, List.dropLast_concat, List.dropLast_concat]

theorem goodComps_take (cs : List String) (h : GoodComps cs) (k : Nat) :
    GoodComps (cs.take k) :=
  fun c hc => h c (List.take_subset k cs hc)

theorem goodComps_dropLast (cs : List String) (h : GoodComps cs) :
    GoodComps cs.dropLast :=
  fun c hc => h c (List.dropLast_subset cs hc)

theorem ancestorLoop_scan_aux (env : Env) :
    ∀ (n : Nat) (cs : List String), cs.length ≤ n → GoodComps cs →
      ∀ fuel, cs.length ≤ fuel →
        ancestorLoop env fuel (joinPath cs) = scanExisting env cs := by
  intro n
  induction n with
  | zero =>
    intro cs hlen _ fuel _
    have hnil : cs = [] := List.length_eq_zero.mp (Nat.le_zero.mp hlen)
    subst hnil
    cases fuel with
    | zero => simp [ancestorLoop, joinPath_nil, scanExisting]
    | succ f => simp [ancestorLoop, joinPath_nil, scanExisting]
  | succ n ih =>
    intro cs hlen h fuel hf
    cases cs with
    | nil =>
      cases fuel with
      | zero => simp [ancestorLoop, joinPath_nil, scanExisting]
      | succ f => simp [ancestorLoop, joinPath_nil, scanExisting]
    | cons c rest =>
      cases fuel with
      | zero => simp at hf
      | succ f =>
        simp only [ancestorLoop]
        rw [if_neg (joinPath_ne_root (c :: rest) h (by simp))]
        by_cases hex : env.existsSync (joinPath (c :: rest)) = true
        · rw [if_pos hex]
          unfold scanExisting
          rw [if_pos hex]
        · rw [if_neg hex]
          unfold scanExisting
          rw [if_neg hex]
          obtain ⟨e, cs2, hcs⟩ : ∃ e cs2, c :: rest = cs2 ++ [e] :=
            ⟨(c :: rest).getLast (by simp), (c :: rest).dropLast,
              (List.dropLast_append_getLast (by simp)).symm⟩
          have hlen2 : cs2.length + 1 = rest.length + 1 := by
            have := congrArg List.length hcs
            simpa using this.symm
          rw [hcs, dirnameStr_joinPath cs2 e (hcs ▸ h), List.dropLast_concat]
          exact ih cs2 (by simp at hlen; omega)
            (fun q hq => (hcs ▸ h) q (List.mem_append_left _ hq)) f
            (by simp at hf; omega)

theorem ancestorLoop_scan (env : Env) (cs : List String) (h : GoodComps cs)
    (fuel : Nat) (hf : cs.length ≤ fuel) :
    ancestorLoop env fuel (joinPath cs) = scanExisting env cs :=
  ancestorLoop_scan_aux env cs.length cs le_rfl h fuel hf

theorem nearest_eq_scan (env : Env) (cs : List String) (h : GoodComps cs)
    (hne : cs ≠ []) :
    nearestExistingAncestor env (joinPath cs) = scanExisting env cs.dropLast := by
  unfold nearestExistingAncestor
  rw [pathComps_joinPath cs h]
  obtain ⟨e, cs2, hcs⟩ : ∃ e cs2, cs = cs2 ++ [e] :=
    ⟨cs.getLast hne, cs.dropLast, (List.dropLast_append_getLast hne).symm⟩
  rw [hcs, dirnameStr_joinPath cs2 e (hcs ▸ h), List.dropLast_concat]
  exact ancestorLoop_scan env cs2 (fun q hq => (hcs ▸ h) q (List.mem_append_left _ hq))
    (cs2 ++ [e]).length (by simp)

theorem scanExisting_ne_nil (env : Env) (cs : List String) (h : cs ≠ []) :
    scanExisting env cs =
      if env.existsSync (joinPath cs) then joinPath cs
      else scanExisting env cs.dropLast := by
  cases cs with
  | nil => exact absurd rfl h
  | cons c rest => rw [scanExisting]

theorem scan_within (env : Env) (ca : List String) (hca : ca ≠ [])
    (hex : env.existsSync (joinPath ca) = true) :
    ∀ es : List String,
      scanExisting env (ca ++ es) = joinPath ca ∨
      strStartsWith (scanExisting env (ca ++ es)) (joinPath ca ++ "/") = true := by
  intro es
  induction es using List.reverseRecOn with
  | nil =>
    rw [List.append_nil, scanExisting_ne_nil env ca hca, if_pos hex]
    exact Or.inl rfl
  | append_singleton es2 e ih =>
    rw [scanExisting_ne_nil env (ca ++ (es2 ++ [e])) (by simp [hca])]
    by_cases hx : env.existsSync (joinPath (ca ++ (es2 ++ [e]))) = true
    · rw [if_pos hx]
      right
      rw [joinPath_append ca (es2 ++ [e]) hca (by simp)]
      exact strStartsWith_append_slash _ _
    · rw [if_neg hx, ← List.append_assoc, List.dropLast_concat]
      exact ih

/-- The deepest existing ancestor of a canonical path strictly below an
existing canonical path `a` is `a` itself or lies strictly below `a`. -/
theorem nearest_within (env : Env) (ca ds : List String)
    (hgood : GoodComps (ca ++ ds)) (hca : ca ≠ []) (hds : ds ≠ [])
    (hex : env.existsSync (joinPath ca) = true) :
    nearestExistingAncestor env (joinPath (ca ++ ds)) = joinPath ca ∨
    strStartsWith (nearestExistingAncestor env (joinPath (ca ++ ds)))
      (joinPath ca ++ "/") = true := by
  rw [nearest_eq_scan env (ca ++ ds) hgood (by simp [hca]),
      dropLast_append_left ca ds hds]
  exact scan_within env ca hca hex ds.dropLast

theorem collapseDots_subset (l : List String) :
    ∀ x ∈ collapseDots l, x ∈ l := by
  unfold collapseDots
  suffices h : ∀ (l : List String) (acc : List String),
      ∀ x ∈ l.foldl (fun acc c => if c = ".." then acc.dropLast else acc ++ [c]) acc,
        x ∈ acc ∨ x ∈ l by
    intro x hx
    rcases h l [] x hx with h1 | h1
    · simp at h1
    · exact h1
  intro l
  induction l with
  | nil => intro acc x hx; exact Or.inl hx
  | cons c rest ih =>
    intro acc x hx
    simp only [List.foldl_cons] at hx
    rcases ih _ x hx with h1 | h1
    · by_cases hc : c = ".."
      · rw [if_pos hc] at h1
        exact Or.inl (List.dropLast_subset acc h1)
      · rw [if_neg hc] at h1
        rcases List.mem_append.mp h1 with h2 | h2
        · exact Or.inl h2
        · simp at h2
          subst h2
          exact Or.inr (List.mem_cons_self x rest)
    · exact Or.inr (List.mem_cons_of_mem c h1)

theorem splitSep_no_slash (s : String) : ∀ q ∈ splitSep s, '/' ∉ q.data := by
  intro q hq
  rcases List.mem_map.mp hq with ⟨l, hl, rfl⟩
  exact splitChar_no_slash_mem s.data l hl

theorem normalize_good (p : String) :
    GoodComps (collapseDots ((splitSep p).filter (fun c => c ≠ "" ∧ c ≠ "."))) := by
  intro c hc
  have hmem := collapseDots_subset _ c hc
  have hfil := List.mem_filter.mp hmem
  constructor
  · have := hfil.2
    simp only [decide_eq_true_eq] at this
    exact this.1
  · exact splitSep_no_slash p c hfil.1

theorem normalize_isCanon (p : String) : IsCanon (normalizePathForSandbox p) :=
  ⟨_, normalize_good p, rfl⟩

/-- Trailing-slash invariance of the spec normalizer: the extra slash only
adds an empty piece, which the filter drops. -/
theorem normalize_trailing_slash (p : String) :
    normalizePathForSandbox (p ++ "/") = normalizePathForSandbox p := by
  unfold normalizePathForSandbox
  have hdata : (p ++ "/").data = p.data ++ '/' :: [] := rfl
  have hsplit : splitSep (p ++ "/") = splitSep p ++ [""] := by
    unfold splitSep
    rw [hdata, splitChar_append_slash, List.map_append]
    rfl
  rw [hsplit, List.filter_append]
  have : List.filter (fun c => decide (c ≠ "" ∧ c ≠ ".")) [""] = [] := by decide
  rw [this, List.append_nil]

theorem processAllowCore_eq (env : Env) (st : FsArgsState) (n : String) :
    processAllowCore env st n =
      if allowPasses env n then
        { st with args := st.args ++ [Directive.bind n n],
                  allowedWritePaths := st.allowedWritePaths ++ [n] }
      else st := by
  unfold processAllowCore allowPasses
  cases h1 : strStartsWith n "/dev/" with
  | true => simp [h1]
  | false =>
    cases h2 : env.existsSync n with
    | false => simp [h1, h2]
    | true =>
      cases hr : env.realpathSync n with
      | none => simp [h1, h2, hr]
      | some r =>
        by_cases h3 : r ≠ trimTrailingOnly n ∧ isSymlinkOutsideBoundary n r = true
        · have hb : (decide (r ≠ trimTrailingOnly n) && isSymlinkOutsideBoundary n r) = true := by
            simp [h3.1, h3.2]
          have hw : widenSkip env n = true := by
            unfold widenSkip
            rw [hr]
            exact hb
          simp [h1, h2, hr, h3, hw]
        · have hb : (decide (r ≠ trimTrailingOnly n) && isSymlinkOutsideBoundary n r) = false := by
            cases hb2 : isSymlinkOutsideBoundary n r
            · simp
            · have heq : r = trimTrailingOnly n := by
                by_contra hd
                exact h3 ⟨hd, hb2⟩
              simp [heq]
          have hw : widenSkip env n = false := by
            unfold widenSkip
            rw [hr]
            exact hb
          simp [h1, h2, hr, h3, hw]

theorem foldl_allow_char (env : Env) (l : List String) (st : FsArgsState) :
    l.foldl (processAllowPath env) st =
      { st with
        args := st.args ++
          ((l.map normalizePathForSandbox).filter (allowPasses env)).map
            (fun n => Directive.bind n n),
        allowedWritePaths := st.allowedWritePaths ++
          (l.map normalizePathForSandbox).filter (allowPasses env) } := by
  induction l generalizing st with
  | nil => simp
  | cons a rest ih =>
    rw [List.foldl_cons]
    have hstep : processAllowPath env st a =
        processAllowCore env st (normalizePathForSandbox a) := rfl
    rw [hstep, processAllowCore_eq]
    by_cases hp : allowPasses env (normalizePathForSandbox a) = true
    · rw [if_pos hp, ih]
      simp [hp, List.append_assoc]
    · rw [if_neg hp, ih]
      simp only [List.map_cons, List.filter_cons]
      rw [if_neg (by simpa using hp)]

theorem processDenyCore_shape (env : Env) (st : FsArgsState) (n : String) :
    processDenyCore env st n = st ∨
    (∃ s t, processDenyCore env st n =
      { st with args := st.args ++ [Directive.roBind s t] }) ∨
    (∃ s t, processDenyCore env st n =
      { st with args := st.args ++ [Directive.roBind s t],
                mountPoints := st.mountPoints ++ [t] }) ∨
    (∃ s t, processDenyCore env st n =
      { st with args := st.args ++ [Directive.roBind s t],
                mountPoints := st.mountPoints ++ [t],
                tempDirs := st.tempDirs ++ [s],
                tmpCounter := st.tmpCounter + 1 }) := by
  unfold processDenyCore
  by_cases h1 : strStartsWith n "/dev/" = true
  · rw [if_pos h1]; exact Or.inl rfl
  · rw [if_neg h1]
    cases hs : findSymlinkInPath env n st.allowedWritePaths with
    | some s => exact Or.inr (Or.inl ⟨"/dev/null", s, rfl⟩)
    | none =>
      by_cases h2 : env.existsSync n = false
      · rw [if_pos h2]
        by_cases h3 : hasFileAncestor env n = true
        · rw [if_pos h3]; exact Or.inl rfl
        · rw [if_neg h3]
          by_cases h4 : (st.allowedWritePaths.any (fun allowedPath =>
              strStartsWith (nearestExistingAncestor env n) (allowedPath ++ "/") ||
              nearestExistingAncestor env n = allowedPath ||
              strStartsWith n (allowedPath ++ "/"))) = true
          · rw [if_pos h4]
            by_cases h5 : findFirstNonExistentComponent env n ≠ n
            · rw [if_pos h5]
              exact Or.inr (Or.inr (Or.inr
                ⟨env.mkdtempName st.tmpCounter, findFirstNonExistentComponent env n, rfl⟩))
            · rw [if_neg h5]
              exact Or.inr (Or.inr (Or.inl
                ⟨"/dev/null", findFirstNonExistentComponent env n, rfl⟩))
          · rw [if_neg h4]; exact Or.inl rfl
      · rw [if_neg h2]
        by_cases h6 : isWithinAllowed n st.allowedWritePaths = true
        · rw [if_pos h6]
          exact Or.inr (Or.inl ⟨n, n, rfl⟩)
        · rw [if_neg h6]; exact Or.inl rfl

theorem processReadDenyCore_shape (env : Env) (st : FsArgsState) (n : String) :
    processReadDenyCore env st n = st ∨
    (∃ p, processReadDenyCore env st n =
      { st with args := st.args ++ [Directive.tmpfs p] }) ∨
    (∃ s t, processReadDenyCore env st n =
      { st with args := st.args ++ [Directive.roBind s t] }) := by
  unfold processReadDenyCore
  by_cases h1 : env.existsSync n = false
  · rw [if_pos h1]; exact Or.inl rfl
  · rw [if_neg h1]
    cases hs : env.statSync n with
    | none => exact Or.inl rfl
    | some k =>
      cases k with
      | dir => exact Or.inr (Or.inl ⟨n, rfl⟩)
      | file sz => exact Or.inr (Or.inr ⟨"/dev/null", n, rfl⟩)

theorem foldl_deny_allowed (env : Env) (l : List String) (st : FsArgsState) :
    (l.foldl (processDenyPath env) st).allowedWritePaths = st.allowedWritePaths := by
  induction l generalizing st with
  | nil => rfl
  | cons a rest ih =>
    rw [List.foldl_cons]
    have hstep : processDenyPath env st a =
        processDenyCore env st (normalizePathForSandbox a) := rfl
    rw [hstep]
    rcases processDenyCore_shape env st (normalizePathForSandbox a) with
      h | ⟨s, t, h⟩ | ⟨s, t, h⟩ | ⟨s, t, h⟩ <;> rw [h, ih]

theorem foldl_read_allowed (env : Env) (l : List String) (st : FsArgsState) :
    (l.foldl (processReadDenyPath env) st).allowedWritePaths = st.allowedWritePaths := by
  induction l generalizing st with
  | nil => rfl
  | cons a rest ih =>
    rw [List.foldl_cons]
    have hstep : processReadDenyPath env st a =
        processReadDenyCore env st (normalizePathForSandbox a) := rfl
    rw [hstep]
    rcases processReadDenyCore_shape env st (normalizePathForSandbox a) with
      h | ⟨p, h⟩ | ⟨s, t, h⟩ <;> rw [h, ih]

theorem foldl_deny_args_ext (env : Env) (l : List String) (st : FsArgsState) :
    ∃ extra, (l.foldl (processDenyPath env) st).args = st.args ++ extra ∧
      ∀ d ∈ extra, ∃ s t, d = Directive.roBind s t := by
  induction l generalizing st with
  | nil => exact ⟨[], by simp, by simp⟩
  | cons a rest ih =>
    rw [List.foldl_cons]
    have hstep : processDenyPath env st a =
        processDenyCore env st (normalizePathForSandbox a) := rfl
    rw [hstep]
    rcases processDenyCore_shape env st (normalizePathForSandbox a) with
      h | ⟨s, t, h⟩ | ⟨s, t, h⟩ | ⟨s, t, h⟩ <;> rw [h]
    · exact ih st
    all_goals
      obtain ⟨e2, he2, hm2⟩ := ih _
      refine ⟨[Directive.roBind s t] ++ e2, by rw [he2]; simp, ?_⟩
      intro d hd
      rcases List.mem_append.mp hd with h1 | h1
      · exact ⟨s, t, by simpa using h1⟩
      · exact hm2 d h1

theorem foldl_read_args_ext (env : Env) (l : List String) (st : FsArgsState) :
    ∃ extra, (l.foldl (processReadDenyPath env) st).args = st.args ++ extra ∧
      ∀ d ∈ extra, (∃ p, d = Directive.tmpfs p) ∨ (∃ s t, d = Directive.roBind s t) := by
  induction l generalizing st with
  | nil => exact ⟨[], by simp, by simp⟩
  | cons a rest ih =>
    rw [List.foldl_cons]
    have hstep : processReadDenyPath env st a =
        processReadDenyCore env st (normalizePathForSandbox a) := rfl
    rw [hstep]
    rcases processReadDenyCore_shape env st (normalizePathForSandbox a) with
      h | ⟨p, h⟩ | ⟨s, t, h⟩ <;> rw [h]
    · exact ih st
    · obtain ⟨e2, he2, hm2⟩ := ih { st with args := st.args ++ [Directive.tmpfs p] }
      refine ⟨[Directive.tmpfs p] ++ e2, by rw [he2]; simp, ?_⟩
      intro d hd
      rcases List.mem_append.mp hd with h1 | h1
      · exact Or.inl ⟨p, by simpa using h1⟩
      · exact hm2 d h1
    · obtain ⟨e2, he2, hm2⟩ := ih { st with args := st.args ++ [Directive.roBind s t] }
      refine ⟨[Directive.roBind s t] ++ e2, by rw [he2]; simp, ?_⟩
      intro d hd
      rcases List.mem_append.mp hd with h1 | h1
      · exact Or.inr ⟨s, t, by simpa using h1⟩
      · exact hm2 d h1

theorem gen_eq (env : Env) (rc : Option FsReadRestrictionConfig)
    (wc : FsWriteRestrictionConfig) (agc : Bool) :
    generateFilesystemArgs env rc (some wc) agc =
      (readDenyPathsOf env rc).foldl (processReadDenyPath env)
        ((wc.denyWithinAllow ++ linuxGetMandatoryDenyPaths env agc).foldl
          (processDenyPath env)
          (wc.allowOnly.foldl (processAllowPath env)
            { args := [Directive.roBind "/" "/"] })) := rfl

theorem gen_allowed (env : Env) (rc : Option FsReadRestrictionConfig)
    (wc : FsWriteRestrictionConfig) (agc : Bool) :
    (generateFilesystemArgs env rc (some wc) agc).allowedWritePaths =
      (wc.allowOnly.map normalizePathForSandbox).filter (allowPasses env) := by
  rw [gen_eq, foldl_read_allowed, foldl_deny_allowed, foldl_allow_char]
  simp

theorem gen_args_decomp (env : Env) (rc : Option FsReadRestrictionConfig)
    (wc : FsWriteRestrictionConfig) (agc : Bool) :
    ∃ e1 e2,
      (generateFilesystemArgs env rc (some wc) agc).args =
        Directive.roBind "/" "/" ::
          (((wc.allowOnly.map normalizePathForSandbox).filter (allowPasses env)).map
            (fun n => Directive.bind n n) ++ e1 ++ e2) ∧
      (∀ d ∈ e1, ∃ s t, d = Directive.roBind s t) ∧
      (∀ d ∈ e2, (∃ p, d = Directive.tmpfs p) ∨ (∃ s t, d = Directive.roBind s t)) := by
  rw [gen_eq]
  obtain ⟨e1, he1, hm1⟩ := foldl_deny_args_ext env
    (wc.denyWithinAllow ++ linuxGetMandatoryDenyPaths env agc)
    (wc.allowOnly.foldl (processAllowPath env) { args := [Directive.roBind "/" "/"] })
  obtain ⟨e2, he2, hm2⟩ := foldl_read_args_ext env (readDenyPathsOf env rc)
    ((wc.denyWithinAllow ++ linuxGetMandatoryDenyPaths env agc).foldl
      (processDenyPath env)
      (wc.allowOnly.foldl (processAllowPath env) { args := [Directive.roBind "/" "/"] }))
  refine ⟨e1, e2, ?_, hm1, hm2⟩
  rw [he2, he1, foldl_allow_char]
  simp [List.append_assoc]

theorem gen_bind_iff (env : Env) (rc : Option FsReadRestrictionConfig)
    (wc : FsWriteRestrictionConfig) (agc : Bool) (x : String) :
    Directive.bind x x ∈ (generateFilesystemArgs env rc (some wc) agc).args ↔
      x ∈ (wc.allowOnly.map normalizePathForSandbox).filter (allowPasses env) := by
  obtain ⟨e1, e2, hdec, hm1, hm2⟩ := gen_args_decomp env rc wc agc
  rw [hdec]
  constructor
  · intro hmem
    rcases List.mem_cons.mp hmem with h | h
    · exact absurd h (by simp)
    rcases List.mem_append.mp h with h | h
    · rcases List.mem_append.mp h with h | h
      · rcases List.mem_map.mp h with ⟨n, hn, heq⟩
        injection heq with h1 h2
        exact h1 ▸ hn
      · rcases hm1 _ h with ⟨s, t, hst⟩
        simp at hst
    · rcases hm2 _ h with ⟨p, hp⟩ | ⟨s, t, hst⟩
      · simp at hp
      · simp at hst
  · intro hmem
    apply List.mem_cons_of_mem
    apply List.mem_append_left
    apply List.mem_append_left
    exact List.mem_map.mpr ⟨x, hmem, rfl⟩

theorem allowPasses_false_of_widenSkip (env : Env) (n : String)
    (h : widenSkip env n = true) : allowPasses env n = false := by
  simp [allowPasses, h]

theorem filter_map_filter_widen (env : Env) (l : List String) :
    ((l.filter (fun p => !widenSkip env (normalizePathForSandbox p))).map
      normalizePathForSandbox).filter (allowPasses env) =
    (l.map normalizePathForSandbox).filter (allowPasses env) := by
  induction l with
  | nil => rfl
  | cons p rest ih =>
    by_cases hw : widenSkip env (normalizePathForSandbox p) = true
    · have hap := allowPasses_false_of_widenSkip env (normalizePathForSandbox p) hw
      simp [List.filter_cons, hw, hap, ih]
    · have hw2 : widenSkip env (normalizePathForSandbox p) = false :=
        Bool.eq_false_iff.mpr hw
      simp [List.filter_cons, hw2, ih]

/-- C1.  A path `a` in `writeConfig.allowOnly` whose canonical resolution
`r` differs from the normalized `a` after trailing-slash trimming and for
which `symlink-widens(a, r)` holds contributes no `--bind n n` directive to
the Linux compilation and is not recorded as an allowed-write root; the
whole compilation equals that of the policy with every such entry removed
(all other allow paths are processed unchanged). -/
theorem c1_widening_allow_path_skipped (env : Env)
    (rc : Option FsReadRestrictionConfig) (wc : FsWriteRestrictionConfig)
    (agc : Bool) (a : String) (_ha : a ∈ wc.allowOnly) (r : String)
    (hres : env.realpathSync (normalizePathForSandbox a) = some r)
    (hdiff : r ≠ trimTrailingOnly (normalizePathForSandbox a))
    (hwiden : isSymlinkOutsideBoundary (normalizePathForSandbox a) r = true) :
    Directive.bind (normalizePathForSandbox a) (normalizePathForSandbox a) ∉
        (generateFilesystemArgs env rc (some wc) agc).args ∧
    normalizePathForSandbox a ∉
        (generateFilesystemArgs env rc (some wc) agc).allowedWritePaths ∧
    generateFilesystemArgs env rc (some wc) agc =
      generateFilesystemArgs env rc
        (some { wc with allowOnly :=
          wc.allowOnly.filter (fun p => !widenSkip env (normalizePathForSandbox p)) })
        agc := by
  have hws : widenSkip env (normalizePathForSandbox a) = true := by
    unfold widenSkip
    rw [hres]
    simp [hdiff, hwiden]
  have hap := allowPasses_false_of_widenSkip env (normalizePathForSandbox a) hws
  refine ⟨?_, ?_, ?_⟩
  · rw [gen_bind_iff]
    intro hmem
    have := (List.mem_filter.mp hmem).2
    rw [hap] at this
    exact Bool.false_ne_true this
  · rw [gen_allowed]
    intro hmem
    have := (List.mem_filter.mp hmem).2
    rw [hap] at this
    exact Bool.false_ne_true this
  · rw [gen_eq, gen_eq, foldl_allow_char, foldl_allow_char]
    have hl := filter_map_filter_widen env wc.allowOnly
    simp only [hl]

/-- Witness for C1 at `/tmp/claude → /`: a symlink to the root is skipped. -/
theorem c1_widening_allow_path_skipped_witness :
    Directive.bind "/tmp/claude" "/tmp/claude" ∉
        (generateFilesystemArgs envC1 none (some wcC1) false).args ∧
    "/tmp/claude" ∉
        (generateFilesystemArgs envC1 none (some wcC1) false).allowedWritePaths ∧
    generateFilesystemArgs envC1 none (some wcC1) false =
      generateFilesystemArgs envC1 none
        (some { wcC1 with
                allowOnly := wcC1.allowOnly.filter
                  (fun p => !widenSkip envC1 (normalizePathForSandbox p)) }) false := by
  have hn : normalizePathForSandbox "/tmp/claude" = "/tmp/claude" := by decide
  have h := c1_widening_allow_path_skipped envC1 none wcC1 false "/tmp/claude"
    (by decide) "/" (by rw [hn]; decide) (by rw [hn]; decide) (by rw [hn]; decide)
  rw [hn] at h
  exact h

theorem foldl_allow_norm (env : Env) (l : List String) (st : FsArgsState) :
    l.foldl (processAllowPath env) st =
      (l.map normalizePathForSandbox).foldl (processAllowCore env) st := by
  rw [List.foldl_map]
  rfl

theorem foldl_deny_norm (env : Env) (l : List String) (st : FsArgsState) :
    l.foldl (processDenyPath env) st =
      (l.map normalizePathForSandbox).foldl (processDenyCore env) st := by
  rw [List.foldl_map]
  rfl

theorem foldl_read_norm (env : Env) (l : List String) (st : FsArgsState) :
    l.foldl (processReadDenyPath env) st =
      (l.map normalizePathForSandbox).foldl (processReadDenyCore env) st := by
  rw [List.foldl_map]
  rfl

theorem map_normalize_slash (pre post : List String) (p : String) :
    (pre ++ [p ++ "/"] ++ post).map normalizePathForSandbox =
    (pre ++ [p] ++ post).map normalizePathForSandbox := by
  simp [normalize_trailing_slash]

/-- C10.  Trailing-slash equivalence: compiling a policy that lists `p` and
compiling the identical policy with `p ++ "/"` in its place produce the same
directive vector (and the same registry state), whether `p` occurs in
`write.allowOnly`, in `write.denyWithinAllow`, or in `read.denyOnly`. -/
theorem c10_trailing_slash_equivalence (env : Env) (agc : Bool) (p : String) :
    (∀ (apre apost deny : List String) (rc : Option FsReadRestrictionConfig),
      generateFilesystemArgs env rc
        (some { allowOnly := apre ++ [p ++ "/"] ++ apost, denyWithinAllow := deny }) agc =
      generateFilesystemArgs env rc
        (some { allowOnly := apre ++ [p] ++ apost, denyWithinAllow := deny }) agc) ∧
    (∀ (allow dpre dpost : List String) (rc : Option FsReadRestrictionConfig),
      generateFilesystemArgs env rc
        (some { allowOnly := allow, denyWithinAllow := dpre ++ [p ++ "/"] ++ dpost }) agc =
      generateFilesystemArgs env rc
        (some { allowOnly := allow, denyWithinAllow := dpre ++ [p] ++ dpost }) agc) ∧
    (∀ (rpre rpost : List String) (wc : Option FsWriteRestrictionConfig),
      generateFilesystemArgs env (some { denyOnly := rpre ++ [p ++ "/"] ++ rpost }) wc agc =
      generateFilesystemArgs env (some { denyOnly := rpre ++ [p] ++ rpost }) wc agc) := by
  refine ⟨?_, ?_, ?_⟩
  · intro apre apost deny rc
    rw [gen_eq, gen_eq, foldl_allow_norm, foldl_allow_norm, map_normalize_slash]
  · intro allow dpre dpost rc
    rw [gen_eq, gen_eq, foldl_deny_norm, foldl_deny_norm]
    simp [normalize_trailing_slash]
  · intro rpre rpost wc
    unfold generateFilesystemArgs readDenyPathsOf
    rw [foldl_read_norm, foldl_read_norm]
    simp [normalize_trailing_slash]

theorem joinPath_startsWith_root (cs : List String) :
    strStartsWith (joinPath cs) "/" = true := by
  rw [strStartsWith_iff, joinPath_data]
  exact ⟨_, rfl⟩

/-- C3 (amended).  The handling of one non-existent deny path by the Linux
compiler's deny loop, under the two preconditions the source checks first:
the path is not under `/dev`, and no component of it inside an allowed-write
root is a symlink (otherwise the symlink-replacement defense fires instead).
With a file ancestor the path is skipped; with the deepest existing ancestor
inside an allowed-write root the compiler emits `--ro-bind /dev/null c` when
the first non-existent component `c` is the deny path itself and
`--ro-bind <fresh tempdir> c` when `c` is a strict prefix, registering `c`
in the mount-point registry in both cases; with the deepest existing
ancestor outside every allowed-write root nothing is emitted. -/
theorem c3_nonexistent_deny_handling (env : Env) (st : FsArgsState) (p n : String)
    (hn : n = normalizePathForSandbox p)
    (hdev : strStartsWith n "/dev/" = false)
    (hsym : findSymlinkInPath env n st.allowedWritePaths = none)
    (hex : env.existsSync n = false) :
    (hasFileAncestor env n = true → processDenyPath env st p = st) ∧
    (hasFileAncestor env n = false →
      ((∃ a ∈ st.allowedWritePaths,
          nearestExistingAncestor env n = a ∨
          strStartsWith (nearestExistingAncestor env n) (a ++ "/") = true) →
        (findFirstNonExistentComponent env n = n →
          processDenyPath env st p =
            { st with
              args := st.args ++ [Directive.roBind "/dev/null" n],
              mountPoints := st.mountPoints ++ [n] }) ∧
        (findFirstNonExistentComponent env n ≠ n →
          processDenyPath env st p =
            { st with
              args := st.args ++
                [Directive.roBind (env.mkdtempName st.tmpCounter)
                  (findFirstNonExistentComponent env n)],
              mountPoints := st.mountPoints ++ [findFirstNonExistentComponent env n],
              tempDirs := st.tempDirs ++ [env.mkdtempName st.tmpCounter],
              tmpCounter := st.tmpCounter + 1 })) ∧
      ((∀ a ∈ st.allowedWritePaths,
          ¬(nearestExistingAncestor env n = a ∨
            strStartsWith (nearestExistingAncestor env n) (a ++ "/") = true)) →
        (∀ a ∈ st.allowedWritePaths, env.existsSync a = true ∧ IsCanon a) →
        IsCanon n →
        processDenyPath env st p = st)) := by
  have hstep : processDenyPath env st p = processDenyCore env st n := by
    rw [hn]; rfl
  constructor
  · intro hfa
    rw [hstep]
    unfold processDenyCore
    simp [hdev, hsym, hex, hfa]
  · intro hfa
    constructor
    · rintro ⟨a, ha, hcase⟩
      have hany : (st.allowedWritePaths.any (fun allowedPath =>
          strStartsWith (nearestExistingAncestor env n) (allowedPath ++ "/") ||
          nearestExistingAncestor env n = allowedPath ||
          strStartsWith n (allowedPath ++ "/"))) = true := by
        rw [List.any_eq_true]
        refine ⟨a, ha, ?_⟩
        rcases hcase with h | h
        · simp [h]
        · simp [h]
      constructor
      · intro hc
        rw [hstep]
        unfold processDenyCore
        simp only [hdev, hsym, hex, hfa, hany, Bool.false_eq_true, if_false, if_pos, if_true]
        rw [if_neg (by simp [hc] : ¬(findFirstNonExistentComponent env n ≠ n))]
        rw [hc]
      · intro hc
        rw [hstep]
        unfold processDenyCore
        simp only [hdev, hsym, hex, hfa, hany, Bool.false_eq_true, if_false, if_pos, if_true]
        rw [if_pos hc]
    · intro hnone hroots hcanon
      have hany : (st.allowedWritePaths.any (fun allowedPath =>
          strStartsWith (nearestExistingAncestor env n) (allowedPath ++ "/") ||
          nearestExistingAncestor env n = allowedPath ||
          strStartsWith n (allowedPath ++ "/"))) = false := by
        rw [List.any_eq_false]
        intro a ha
        have h1 : strStartsWith (nearestExistingAncestor env n) (a ++ "/") = false := by
          cases hb : strStartsWith (nearestExistingAncestor env n) (a ++ "/")
          · rfl
          · exact absurd (Or.inr hb) (hnone a ha)
        have h2 : ¬(nearestExistingAncestor env n = a) :=
          fun hh => (hnone a ha) (Or.inl hh)
        have h3 : strStartsWith n (a ++ "/") = false := by
          cases hb : strStartsWith n (a ++ "/")
          · rfl
          · exfalso
            obtain ⟨cs, hgood, hcs⟩ := hcanon
            obtain ⟨hexa, hca⟩ := hroots a ha
            have hroot : strStartsWith a "/" = true := by
              obtain ⟨ca, hgca, hcaeq⟩ := hca
              rw [hcaeq]
              exact joinPath_startsWith_root ca
            obtain ⟨k, hk0, hkle, hka⟩ :=
              canon_prefix_decomp cs hgood a (by rw [← hcs]; exact hb) hroot
            have hklt : k < cs.length := by
              rcases Nat.lt_or_ge k cs.length with h | h
              · exact h
              · exfalso
                have hkeq : k = cs.length := le_antisymm hkle h
                have han : a = n := by
                  rw [hka, hkeq, List.take_length, ← hcs]
                have hpre := (strStartsWith_iff _ _).mp hb
                have hlen := hpre.length_le
                rw [string_data_append, han] at hlen
                simp at hlen
            have htk : cs.take k ≠ [] := by
              intro hh
              rw [List.take_eq_nil_iff] at hh
              rcases hh with hh | hh
              · omega
              · rw [hh] at hklt; simp at hklt
            have hdk : cs.drop k ≠ [] := by
              intro hh
              rw [List.drop_eq_nil_iff] at hh
              omega
            have hw := nearest_within env (cs.take k) (cs.drop k)
              (by rw [List.take_append_drop]; exact hgood) htk hdk
              (by rw [← hka]; exact hexa)
            rw [List.take_append_drop, ← hcs, ← hka] at hw
            exact (hnone a ha) hw
        simp [h1, h2, h3]
      rw [hstep]
      unfold processDenyCore
      simp [hdev, hsym, hex, hfa, hany]

/-- Counterexample to C3 as stated: `/w/link` is a symlink to the directory
`/w/real` inside the allowed-write root `/w`, and the deny path
`/w/link/sub/x` does not exist, has no file ancestor and has its deepest
existing ancestor inside the allowed-write root — every premise of the claim
holds and `c = /w/link/sub` is a strict prefix of the deny path, yet the
compiler emits `--ro-bind /dev/null /w/link` (the symlink-replacement
defense) instead of the claimed `--ro-bind <tempdir> c`, and registers
nothing in the mount-point registry. -/
theorem c3_counterexample :
    processDenyPath envC3 stC3 "/w/link/sub/x" =
      { stC3 with args := stC3.args ++ [Directive.roBind "/dev/null" "/w/link"] } ∧
    envC3.existsSync "/w/link/sub/x" = false ∧
    hasFileAncestor envC3 "/w/link/sub/x" = false ∧
    strStartsWith (nearestExistingAncestor envC3 "/w/link/sub/x") ("/w" ++ "/") = true ∧
    "/w" ∈ stC3.allowedWritePaths ∧
    findFirstNonExistentComponent envC3 "/w/link/sub/x" = "/w/link/sub" ∧
    findFirstNonExistentComponent envC3 "/w/link/sub/x" ≠ "/w/link/sub/x" ∧
    (processDenyPath envC3 stC3 "/w/link/sub/x").mountPoints = [] := by
  decide

/-- Witness for the amended C3 at a concrete input with no symlink in the
deny path: the intermediate missing component gets the tempdir bind and is
registered. -/
theorem c3_nonexistent_deny_handling_witness :
    processDenyPath envC3b stC3 "/w/link/sub/x" =
      { stC3 with
        args := stC3.args ++ [Directive.roBind "/tmp/claude-empty-0" "/w/link/sub"],
        mountPoints := stC3.mountPoints ++ ["/w/link/sub"],
        tempDirs := stC3.tempDirs ++ ["/tmp/claude-empty-0"],
        tmpCounter := stC3.tmpCounter + 1 } := by
  have h := c3_nonexistent_deny_handling envC3b stC3 "/w/link/sub/x" "/w/link/sub/x"
    (by decide) (by decide) (by decide) (by decide)
  have h2 := ((h.2 (by decide)).1 ⟨"/w", by decide, by decide⟩).2 (by decide)
  simpa using h2

theorem cleanupActionFor_unlink (env : Env) (x m : String) :
    cleanupActionFor env x = some (CleanupAction.unlink m) ↔
      x = m ∧ env.statSync x = some (StatNode.file 0) := by
  unfold cleanupActionFor
  cases hs : env.statSync x with
  | none => simp
  | some k =>
    cases k with
    | file sz =>
      cases sz with
      | zero => simp [eq_comm]
      | succ s2 => simp
    | dir =>
      by_cases hr : env.readdirCount x = 0
      · simp [hr]
      · simp [hr]

theorem cleanupActionFor_rmdir (env : Env) (x m : String) :
    cleanupActionFor env x = some (CleanupAction.rmdir m) ↔
      x = m ∧ env.statSync x = some StatNode.dir ∧ env.readdirCount x = 0 := by
  unfold cleanupActionFor
  cases hs : env.statSync x with
  | none => simp
  | some k =>
    cases k with
    | file sz =>
      cases sz with
      | zero => simp
      | succ s2 => simp
    | dir =>
      by_cases hr : env.readdirCount x = 0
      · simp [hr, eq_comm]
      · simp [hr]

/-- C7 (amended).  `cleanupBwrapMountPoints` stats each registered mount
point with `fs.statSync` — which follows symlinks — and unlinks an entry iff
that stat reports a zero-byte regular file, attempts rmdir iff it reports an
empty directory, and otherwise leaves the entry alone; it clears the
registry, never raises (every per-entry failure is swallowed), and a second
consecutive call is a no-op. -/
theorem c7_cleanup_follows_stat (env : Env) (registry : List String) :
    (cleanupBwrapMountPoints env registry).2 = [] ∧
    cleanupBwrapMountPoints env (cleanupBwrapMountPoints env registry).2 = ([], []) ∧
    (∀ m,
      (CleanupAction.unlink m ∈ (cleanupBwrapMountPoints env registry).1 ↔
        m ∈ registry ∧ env.statSync m = some (StatNode.file 0)) ∧
      (CleanupAction.rmdir m ∈ (cleanupBwrapMountPoints env registry).1 ↔
        m ∈ registry ∧ env.statSync m = some StatNode.dir ∧
          env.readdirCount m = 0)) := by
  refine ⟨rfl, rfl, ?_⟩
  intro m
  constructor
  · unfold cleanupBwrapMountPoints
    rw [List.mem_filterMap]
    constructor
    · rintro ⟨x, hx, hact⟩
      obtain ⟨hxm, hstat⟩ := (cleanupActionFor_unlink env x m).mp hact
      exact ⟨hxm ▸ hx, hxm ▸ hstat⟩
    · rintro ⟨hm, hstat⟩
      exact ⟨m, hm, (cleanupActionFor_unlink env m m).mpr ⟨rfl, hstat⟩⟩
  · unfold cleanupBwrapMountPoints
    rw [List.mem_filterMap]
    constructor
    · rintro ⟨x, hx, hact⟩
      obtain ⟨hxm, hstat, hrd⟩ := (cleanupActionFor_rmdir env x m).mp hact
      exact ⟨hxm ▸ hx, hxm ▸ hstat, hxm ▸ hrd⟩
    · rintro ⟨hm, hstat, hrd⟩
      exact ⟨m, hm, (cleanupActionFor_rmdir env m m).mpr ⟨rfl, hstat, hrd⟩⟩

/-- Counterexample to C7 as stated: the registered mount point `/g/.bashrc`
is a symlink (to the zero-byte file `/g/target`), so an examination "without
following symlinks" would leave it alone — `lstatSync` reports a symlink,
not a zero-byte regular file — yet the reaper, which uses `fs.statSync`,
unlinks it. -/
theorem c7_counterexample :
    CleanupAction.unlink "/g/.bashrc" ∈
      (cleanupBwrapMountPoints envC7 ["/g/.bashrc"]).1 ∧
    envC7.lstatSync "/g/.bashrc" = some FsNode.symlink ∧
    ¬(CleanupAction.unlink "/g/.bashrc" ∈
        (cleanupBwrapMountPoints envC7 ["/g/.bashrc"]).1 ↔
      envC7.lstatSync "/g/.bashrc" = some (FsNode.file 0)) := by
  decide

/-- Witness for the amended C7: the symlinked zero-byte entry is unlinked. -/
theorem c7_cleanup_follows_stat_witness :
    CleanupAction.unlink "/g/.bashrc" ∈
      (cleanupBwrapMountPoints envC7 ["/g/.bashrc"]).1 :=
  (((c7_cleanup_follows_stat envC7 ["/g/.bashrc"]).2.2 "/g/.bashrc").1).mpr
    ⟨by decide, by decide⟩

theorem tempPaired_allow (env : Env) (st : FsArgsState) (a : String)
    (h : TempPaired st) : TempPaired (processAllowPath env st a) := by
  have hstep : processAllowPath env st a =
      processAllowCore env st (normalizePathForSandbox a) := rfl
  rw [hstep, processAllowCore_eq]
  by_cases hp : allowPasses env (normalizePathForSandbox a) = true
  · rw [if_pos hp]
    intro t ht
    obtain ⟨c, hc1, hc2⟩ := h t ht
    exact ⟨c, List.mem_append_left _ hc1, hc2⟩
  · rw [if_neg hp]; exact h

theorem tempPaired_deny (env : Env) (st : FsArgsState) (a : String)
    (h : TempPaired st) : TempPaired (processDenyPath env st a) := by
  have hstep : processDenyPath env st a =
      processDenyCore env st (normalizePathForSandbox a) := rfl
  rw [hstep]
  rcases processDenyCore_shape env st (normalizePathForSandbox a) with
    hc | ⟨s, t0, hc⟩ | ⟨s, t0, hc⟩ | ⟨s, t0, hc⟩ <;> rw [hc]
  · exact h
  · intro t ht
    obtain ⟨c, hc1, hc2⟩ := h t ht
    exact ⟨c, List.mem_append_left _ hc1, hc2⟩
  · intro t ht
    obtain ⟨c, hc1, hc2⟩ := h t ht
    exact ⟨c, List.mem_append_left _ hc1, List.mem_append_left _ hc2⟩
  · intro t ht
    rcases List.mem_append.mp ht with h1 | h1
    · obtain ⟨c, hc1, hc2⟩ := h t h1
      exact ⟨c, List.mem_append_left _ hc1, List.mem_append_left _ hc2⟩
    · have : t = s := by simpa using h1
      subst this
      exact ⟨t0, List.mem_append_right _ (by simp), List.mem_append_right _ (by simp)⟩

theorem tempPaired_read (env : Env) (st : FsArgsState) (a : String)
    (h : TempPaired st) : TempPaired (processReadDenyPath env st a) := by
  have hstep : processReadDenyPath env st a =
      processReadDenyCore env st (normalizePathForSandbox a) := rfl
  rw [hstep]
  rcases processReadDenyCore_shape env st (normalizePathForSandbox a) with
    hc | ⟨p0, hc⟩ | ⟨s, t0, hc⟩ <;> rw [hc]
  · exact h
  all_goals
    intro t ht
    obtain ⟨c, hc1, hc2⟩ := h t ht
    exact ⟨c, List.mem_append_left _ hc1, hc2⟩

theorem tempPaired_foldl {f : FsArgsState → String → FsArgsState}
    (hf : ∀ st a, TempPaired st → TempPaired (f st a))
    (l : List String) (st : FsArgsState) (h : TempPaired st) :
    TempPaired (l.foldl f st) := by
  induction l generalizing st with
  | nil => exact h
  | cons a rest ih => exact ih (f st a) (hf st a h)

/-- C8 (amended).  Resource discipline, with one correction on the tempdir
half: every tempdir acquired for an intermediate deny mount point is paired
with a `--ro-bind <tempdir> c` directive whose target `c` is registered in
the process-wide mount-point registry — it is `c`, not the tempdir itself,
that the registry holds and that teardown removes.  The filter half holds as
claimed: every runtime-generated seccomp filter recorded by a successful
compilation (always the runtime artifact, never a pre-built vendor one,
registered only when unix-socket blocking was requested) is an entry of the
generated-filter registry whose process-exit teardown removes that filter
file; and the exit handler replays every mount-point removal as a safety
net. -/
theorem c8_registry_pairing :
    (∀ (env : Env) (rc : Option FsReadRestrictionConfig)
       (wc : Option FsWriteRestrictionConfig) (agc : Bool),
       TempPaired (generateFilesystemArgs env rc wc agc)) ∧
    (∀ (env : Env) (params : LinuxSandboxParams) (out : WrapOutput),
       wrapCommandWithSandboxLinux env params = Except.ok out →
       ∀ f ∈ out.generatedSeccompFilters,
         (env.generateSeccompFilter = some f ∧
          strIncludes f "/vendor/seccomp/" = false ∧
          params.allowAllUnixSockets = false) ∧
         (∀ mountRegistry, ExitAction.removeFilter f ∈
            (processExitCleanup env out.generatedSeccompFilters mountRegistry).1)) ∧
    (∀ (env : Env) (filters mountRegistry : List String) (a : CleanupAction),
       a ∈ (cleanupBwrapMountPoints env mountRegistry).1 →
       ExitAction.mount a ∈ (processExitCleanup env filters mountRegistry).1) := by
  refine ⟨?_, ?_, ?_⟩
  · intro env rc wc agc
    cases wc with
    | none =>
      unfold generateFilesystemArgs
      apply tempPaired_foldl (tempPaired_read env)
      intro t ht
      simp at ht
    | some wcfg =>
      rw [gen_eq]
      apply tempPaired_foldl (tempPaired_read env)
      apply tempPaired_foldl (tempPaired_deny env)
      apply tempPaired_foldl (tempPaired_allow env)
      intro t ht
      simp at ht
  · intro env params out hok f hf
    refine ⟨?_, ?_⟩
    case refine_2 =>
      intro mountRegistry
      exact List.mem_append_left _ (List.mem_map_of_mem ExitAction.removeFilter hf)
    unfold wrapCommandWithSandboxLinux at hok
    by_cases hnr : noRestrictions params = true
    · rw [if_pos hnr] at hok
      cases hok
      simp at hf
    · rw [if_neg hnr] at hok
      cases hnet : netArgsOf env params with
      | error e => rw [hnet] at hok; cases hok
      | ok net =>
        rw [hnet] at hok
        dsimp only at hok
        cases hsh : env.whichSync (params.binShell.getD "bash") with
        | none => rw [hsh] at hok; cases hok
        | some shell =>
          rw [hsh] at hok
          dsimp only at hok
          cases hpay : payloadOf env params shell with
          | error e => rw [hpay] at hok; cases hok
          | ok pay =>
            rw [hpay] at hok
            cases hok
            simp only [] at hf
            unfold filtersOf at hf
            cases hsf : seccompFilterPathOf env params with
            | none => rw [hsf] at hf; simp at hf
            | some f2 =>
              rw [hsf] at hf
              dsimp only at hf
              by_cases hv : strIncludes f2 "/vendor/seccomp/" = true
              · rw [if_pos hv] at hf; simp at hf
              · rw [if_neg hv] at hf
                have hf2 : f = f2 := by simpa using hf
                subst hf2
                unfold seccompFilterPathOf at hsf
                by_cases ha : params.allowAllUnixSockets = true
                · rw [ha] at hsf; simp at hsf
                · have ha2 : params.allowAllUnixSockets = false := Bool.eq_false_iff.mpr ha
                  rw [ha2] at hsf
                  simp only [Bool.not_false, if_true] at hsf
                  cases hg : env.generateSeccompFilter with
                  | none => rw [hg] at hsf; simp at hsf
                  | some g =>
                    rw [hg] at hsf
                    cases hab : env.applySeccompBinary with
                    | none => rw [hab] at hsf; simp at hsf
                    | some ab =>
                      rw [hab] at hsf
                      simp at hsf
                      exact ⟨congrArg some hsf, Bool.eq_false_iff.mpr hv, ha2⟩
  · intro env filters mountRegistry a ha
    exact List.mem_append_right _ (List.mem_map_of_mem ExitAction.mount ha)

/-- Counterexample to C8 as stated: the registry entry paired with the
acquired tempdir `/tmp/claude-empty-0` is the intermediate mount point
`/w/a`, not the tempdir itself; teardown removes `/w/a` and never removes
the tempdir, so the acquired resource is not removed by the registry's
teardown. -/
theorem c8_counterexample :
    (generateFilesystemArgs envC8 none (some wcC8) false).tempDirs =
      ["/tmp/claude-empty-0"] ∧
    (generateFilesystemArgs envC8 none (some wcC8) false).mountPoints = ["/w/a"] ∧
    "/tmp/claude-empty-0" ∉
      (generateFilesystemArgs envC8 none (some wcC8) false).mountPoints ∧
    cleanupBwrapMountPoints envC8b
        (generateFilesystemArgs envC8 none (some wcC8) false).mountPoints =
      ([CleanupAction.rmdir "/w/a"], []) ∧
    CleanupAction.rmdir "/tmp/claude-empty-0" ∉
      (cleanupBwrapMountPoints envC8b
        (generateFilesystemArgs envC8 none (some wcC8) false).mountPoints).1 ∧
    CleanupAction.unlink "/tmp/claude-empty-0" ∉
      (cleanupBwrapMountPoints envC8b
        (generateFilesystemArgs envC8 none (some wcC8) false).mountPoints).1 := by
  decide

/-- Witness for the amended C8: the concrete tempdir is paired with a
registered mount point; a concrete successful compilation registers exactly
the runtime-generated non-vendor filter, and the process-exit teardown
removes that filter and replays the mount-point removal. -/
theorem c8_registry_pairing_witness :
    TempPaired (generateFilesystemArgs envC8 none (some wcC8) false) ∧
    ((envC8f.generateSeccompFilter = some "/tmp/sc.bpf" ∧
      strIncludes "/tmp/sc.bpf" "/vendor/seccomp/" = false ∧
      paramsC8.allowAllUnixSockets = false) ∧
     ExitAction.removeFilter "/tmp/sc.bpf" ∈
       (processExitCleanup envC8f outC8.generatedSeccompFilters ["/w/a"]).1) ∧
    ExitAction.mount (CleanupAction.rmdir "/w/a") ∈
      (processExitCleanup envC8b [] ["/w/a"]).1 :=
  ⟨c8_registry_pairing.1 envC8 none (some wcC8) false,
   (fun h => ⟨h.1, h.2 ["/w/a"]⟩)
     (c8_registry_pairing.2.1 envC8f paramsC8 outC8 (by rfl) "/tmp/sc.bpf" (by decide)),
   c8_registry_pairing.2.2 envC8b [] ["/w/a"] (CleanupAction.rmdir "/w/a") (by decide)⟩

theorem strData_append (a b : String) : (a ++ b).data = a.data ++ b.data := rfl

theorem strLen_append (a b : String) : strLen (a ++ b) = strLen a + strLen b := by
  simp [strLen, strData_append]

theorem strStartsWith_append (a b : String) : strStartsWith (a ++ b) a = true := by
  simp [strStartsWith, strData_append, List.isPrefixOf_iff_prefix]

theorem flatten_map_ge (f : Char → List Char) (hf : ∀ c, 1 ≤ (f c).length)
    (l : List Char) : l.length ≤ (l.map f).flatten.length := by
  induction l with
  | nil => simp
  | cons c r ih =>
    simp only [List.map_cons, List.flatten_cons, List.length_append, List.length_cons]
    have := hf c
    omega

theorem shellQuoteArg_ge (s : String) : strLen s ≤ strLen (shellQuoteArg s) := by
  unfold shellQuoteArg
  by_cases h0 : s = ""
  · subst h0; simp [strLen]
  · rw [if_neg h0]
    by_cases hsafe : s.data.all isShellSafeChar = true
    · rw [if_pos hsafe]
    · rw [if_neg hsafe]
      rw [strLen_append, strLen_append]
      have hflat : strLen s ≤ strLen
          (⟨(s.data.map (fun c =>
            if c = Char.ofNat 39 then (sqc ++ "\\" ++ sqc ++ sqc).data
            else [c])).flatten⟩ : String) := by
        show s.data.length ≤ _
        apply flatten_map_ge
        intro c
        by_cases hc : c = Char.ofNat 39
        · rw [if_pos hc]; decide
        · rw [if_neg hc]; simp
      omega

theorem joinWith_mem_ge (sep : String) (l : List String) (x : String)
    (hx : x ∈ l) : strLen x ≤ strLen (joinWith sep l) := by
  induction l with
  | nil => simp at hx
  | cons y r ih =>
    cases r with
    | nil =>
      have : x = y := by simpa using hx
      subst this
      exact Nat.le_refl _
    | cons z r2 =>
      have hj : joinWith sep (y :: z :: r2) = y ++ sep ++ joinWith sep (z :: r2) := rfl
      rw [hj, strLen_append, strLen_append]
      rcases List.mem_cons.mp hx with h1 | h1
      · subst h1; omega
      · have := ih h1
        omega

theorem shellQuote_mem_ge (xs : List String) (x : String) (hx : x ∈ xs) :
    strLen x ≤ strLen (shellQuote xs) :=
  Nat.le_trans (shellQuoteArg_ge x)
    (joinWith_mem_ge " " (xs.map shellQuoteArg) (shellQuoteArg x)
      (List.mem_map_of_mem shellQuoteArg hx))

theorem buildSandboxCommand_ge (env : Env) (hp sp cmd : String)
    (sf : Option String) (shell : String) (wps : List String) :
    strLen cmd ≤ strLen (buildSandboxCommand env hp sp cmd sf shell wps) := by
  unfold buildSandboxCommand
  cases sf with
  | some fp =>
    rw [strLen_append]
    have h1 : cmd ∈ ["bwrap", "--unshare-all", "--share-net", "--ro-bind", "/", "/"] ++
        (innerReplayDirectives env wps).flatMap Directive.render ++
        ["--dev", "/dev", "--seccomp", "3", "--", shell, "-c", cmd] := by
      apply List.mem_append_right
      simp
    have h2 := shellQuote_mem_ge _ cmd h1
    have h3 : strLen (shellQuote
        (["bwrap", "--unshare-all", "--share-net", "--ro-bind", "/", "/"] ++
         (innerReplayDirectives env wps).flatMap Directive.render ++
         ["--dev", "/dev", "--seccomp", "3", "--", shell, "-c", cmd])) ≤
        strLen (joinWith "\n"
          (socatCommands hp sp ++
           ["sleep 0.1", "exec 3< " ++ shellQuote [fp],
            shellQuote (["bwrap", "--unshare-all", "--share-net", "--ro-bind", "/", "/"] ++
              (innerReplayDirectives env wps).flatMap Directive.render ++
              ["--dev", "/dev", "--seccomp", "3", "--", shell, "-c", cmd])])) := by
      apply joinWith_mem_ge
      simp
    have h4 := shellQuote_mem_ge [joinWith "\n"
          (socatCommands hp sp ++
           ["sleep 0.1", "exec 3< " ++ shellQuote [fp],
            shellQuote (["bwrap", "--unshare-all", "--share-net", "--ro-bind", "/", "/"] ++
              (innerReplayDirectives env wps).flatMap Directive.render ++
              ["--dev", "/dev", "--seccomp", "3", "--", shell, "-c", cmd])])]
      (joinWith "\n"
          (socatCommands hp sp ++
           ["sleep 0.1", "exec 3< " ++ shellQuote [fp],
            shellQuote (["bwrap", "--unshare-all", "--share-net", "--ro-bind", "/", "/"] ++
              (innerReplayDirectives env wps).flatMap Directive.render ++
              ["--dev", "/dev", "--seccomp", "3", "--", shell, "-c", cmd])])) (by simp)
    omega
  | none =>
    rw [strLen_append]
    have h1 : strLen cmd ≤ strLen (shellQuote [cmd]) :=
      shellQuote_mem_ge [cmd] cmd (by simp)
    have h2 : strLen ("eval " ++ shellQuote [cmd]) ≤ strLen (joinWith "\n"
        (socatCommands hp sp ++ ["eval " ++ shellQuote [cmd]])) := by
      apply joinWith_mem_ge
      simp
    rw [strLen_append] at h2
    have h4 := shellQuote_mem_ge
      [joinWith "\n" (socatCommands hp sp ++ ["eval " ++ shellQuote [cmd]])]
      (joinWith "\n" (socatCommands hp sp ++ ["eval " ++ shellQuote [cmd]])) (by simp)
    omega

theorem payloadOf_ge (env : Env) (params : LinuxSandboxParams) (shell pay : String)
    (h : payloadOf env params shell = Except.ok pay) :
    strLen params.command ≤ strLen pay := by
  unfold payloadOf at h
  cases hn : params.needsNetworkRestriction with
  | true =>
    cases hhp : params.httpSocketPath with
    | some hp =>
      cases hsp : params.socksSocketPath with
      | some sp =>
        rw [hn, hhp, hsp] at h
        dsimp only at h
        injection h with h
        subst h
        exact buildSandboxCommand_ge env hp sp params.command _ shell _
      | none =>
        rw [hn, hhp, hsp] at h
        dsimp only at h
        cases hsf : seccompFilterPathOf env params with
        | some f =>
          rw [hsf] at h
          cases hab : env.applySeccompBinary with
          | none => rw [hab] at h; cases h
          | some ab =>
            rw [hab] at h
            injection h with h
            subst h
            exact shellQuote_mem_ge _ params.command (by simp)
        | none =>
          rw [hsf] at h
          injection h with h
          subst h
          exact Nat.le_refl _
    | none =>
      rw [hn, hhp] at h
      dsimp only at h
      cases hsf : seccompFilterPathOf env params with
      | some f =>
        rw [hsf] at h
        cases hab : env.applySeccompBinary with
        | none => rw [hab] at h; cases h
        | some ab =>
          rw [hab] at h
          injection h with h
          subst h
          exact shellQuote_mem_ge _ params.command (by simp)
      | none =>
        rw [hsf] at h
        injection h with h
        subst h
        exact Nat.le_refl _
  | false =>
    rw [hn] at h
    dsimp only at h
    cases hsf : seccompFilterPathOf env params with
    | some f =>
      rw [hsf] at h
      cases hab : env.applySeccompBinary with
      | none => rw [hab] at h; cases h
      | some ab =>
        rw [hab] at h
        injection h with h
        subst h
        exact shellQuote_mem_ge _ params.command (by simp)
    | none =>
      rw [hsf] at h
      injection h with h
      subst h
      exact Nat.le_refl _

theorem shellQuote_bwrap_shape (y : String) (r : List String) :
    shellQuote ("bwrap" :: y :: r) =
      "bwrap" ++ " " ++ joinWith " " (shellQuoteArg y :: r.map shellQuoteArg) := rfl

theorem shellQuote_bwrap_ge (l : List String) (x : String) (hl : x ∈ l) :
    strStartsWith (shellQuote ("bwrap" :: l)) "bwrap " = true ∧
    strLen x + 6 ≤ strLen (shellQuote ("bwrap" :: l)) := by
  cases l with
  | nil => simp at hl
  | cons y r =>
    rw [shellQuote_bwrap_shape]
    have he : ("bwrap" ++ " " ++
        joinWith " " (shellQuoteArg y :: r.map shellQuoteArg) : String) =
        "bwrap " ++ joinWith " " (shellQuoteArg y :: r.map shellQuoteArg) := rfl
    constructor
    · rw [he]
      exact strStartsWith_append "bwrap " _
    · rw [strLen_append, strLen_append]
      have hmem : shellQuoteArg x ∈ shellQuoteArg y :: r.map shellQuoteArg := by
        have := List.mem_map_of_mem shellQuoteArg hl
        simpa using this
      have h2 := joinWith_mem_ge " " _ _ hmem
      have h1 := Nat.le_trans (shellQuoteArg_ge x) h2
      have h5 : strLen ("bwrap" : String) = 5 := by decide
      have h6 : strLen (" " : String) = 1 := by decide
      omega

/-- C9.  `wrapCommandWithSandboxLinux` short-circuits exactly when no
restriction is configured — no network restriction, no read-deny entries,
no write config — returning the user command unchanged with empty
registries; in every other successful case the returned command is a
composite `bwrap` invocation, strictly longer than the user command. -/
theorem c9_short_circuit (env : Env) (params : LinuxSandboxParams) :
    (noRestrictions params = true ↔
      (params.needsNetworkRestriction = false ∧
       (∀ rc, params.readConfig = some rc → rc.denyOnly = []) ∧
       params.writeConfig = none)) ∧
    (noRestrictions params = true →
      wrapCommandWithSandboxLinux env params =
        Except.ok { cmd := params.command, mountPoints := [], tempDirs := [],
                    generatedSeccompFilters := [] }) ∧
    (noRestrictions params = false →
      ∀ out, wrapCommandWithSandboxLinux env params = Except.ok out →
        strStartsWith out.cmd "bwrap " = true ∧
        strLen params.command < strLen out.cmd) := by
  refine ⟨?_, ?_, ?_⟩
  · cases hrc : params.readConfig with
    | none =>
      cases hwc : params.writeConfig with
      | none => simp [noRestrictions, hrc, hwc, Bool.not_eq_true']
      | some w => simp [noRestrictions, hrc, hwc]
    | some rc2 =>
      cases hwc : params.writeConfig with
      | none => simp [noRestrictions, hrc, hwc, Bool.not_eq_true']
      | some w => simp [noRestrictions, hrc, hwc]
  · intro h
    unfold wrapCommandWithSandboxLinux
    rw [if_pos h]
  · intro hnr out hok
    have hnr2 : ¬(noRestrictions params = true) := by
      rw [hnr]; exact Bool.false_ne_true
    unfold wrapCommandWithSandboxLinux at hok
    rw [if_neg hnr2] at hok
    cases hnet : netArgsOf env params with
    | error e => rw [hnet] at hok; cases hok
    | ok net =>
      rw [hnet] at hok
      dsimp only at hok
      cases hsh : env.whichSync (params.binShell.getD "bash") with
      | none => rw [hsh] at hok; cases hok
      | some shell =>
        rw [hsh] at hok
        dsimp only at hok
        cases hpay : payloadOf env params shell with
        | error e => rw [hpay] at hok; cases hok
        | ok pay =>
          rw [hpay] at hok
          cases hok
          dsimp only
          have hmem : pay ∈
              (([Directive.newSession, Directive.dieWithParent] ++ net ++
                (generateFilesystemArgs env params.readConfig params.writeConfig
                  params.allowGitConfig).args ++
                [Directive.dev "/dev", Directive.unsharePid] ++
                (if (!params.enableWeakerNestedSandbox) = true then
                  [Directive.proc "/proc"] else [])).flatMap Directive.render ++
               ["--", shell, "-c", pay]) := by
            apply List.mem_append_right
            simp
          have h1 := shellQuote_bwrap_ge _ pay hmem
          have h2 := payloadOf_ge env params shell pay hpay
          exact ⟨h1.1, by have := h1.2; omega⟩

/-- Witness for C9: a restriction-free call passes `echo hi` through
unchanged; a call with a write config produces a longer bwrap composite. -/
theorem c9_short_circuit_witness :
    (wrapCommandWithSandboxLinux envC8
        { command := "echo hi", needsNetworkRestriction := false } =
      Except.ok { cmd := "echo hi", mountPoints := [], tempDirs := [],
                  generatedSeccompFilters := [] }) ∧
    (strStartsWith outC8.cmd "bwrap " = true ∧
     strLen paramsC8.command < strLen outC8.cmd) :=
  ⟨(c9_short_circuit envC8
      { command := "echo hi", needsNetworkRestriction := false }).2.1 (by decide),
   (c9_short_circuit envC8f paramsC8).2.2 (by decide) outC8 (by rfl)⟩

theorem seccompFilterPathOf_some_apply (env : Env) (params : LinuxSandboxParams)
    (f : String) (h : seccompFilterPathOf env params = some f) :
    env.applySeccompBinary ≠ none := by
  unfold seccompFilterPathOf at h
  by_cases ha : params.allowAllUnixSockets = true
  · rw [ha] at h; simp at h
  · have ha2 := Bool.eq_false_iff.mpr ha
    rw [ha2] at h
    simp only [Bool.not_false, if_true] at h
    cases hg : env.generateSeccompFilter with
    | none => rw [hg] at h; simp at h
    | some g =>
      rw [hg] at h
      cases hab : env.applySeccompBinary with
      | none => rw [hab] at h; simp at h
      | some ab => simp [hab]

theorem payloadOf_ne_error (env : Env) (params : LinuxSandboxParams)
    (shell e : String) : payloadOf env params shell ≠ Except.error e := by
  intro h
  unfold payloadOf at h
  cases hn : params.needsNetworkRestriction with
  | true =>
    cases hhp : params.httpSocketPath with
    | some hp =>
      cases hsp : params.socksSocketPath with
      | some sp => rw [hn, hhp, hsp] at h; cases h
      | none =>
        rw [hn, hhp, hsp] at h
        dsimp only at h
        cases hsf : seccompFilterPathOf env params with
        | some f =>
          rw [hsf] at h
          cases hab : env.applySeccompBinary with
          | none => exact seccompFilterPathOf_some_apply env params f hsf hab
          | some ab => rw [hab] at h; cases h
        | none => rw [hsf] at h; cases h
    | none =>
      rw [hn, hhp] at h
      dsimp only at h
      cases hsf : seccompFilterPathOf env params with
      | some f =>
        rw [hsf] at h
        cases hab : env.applySeccompBinary with
        | none => exact seccompFilterPathOf_some_apply env params f hsf hab
        | some ab => rw [hab] at h; cases h
      | none => rw [hsf] at h; cases h
  | false =>
    rw [hn] at h
    dsimp only at h
    cases hsf : seccompFilterPathOf env params with
    | some f =>
      rw [hsf] at h
      cases hab : env.applySeccompBinary with
      | none => exact seccompFilterPathOf_some_apply env params f hsf hab
      | some ab => rw [hab] at h; cases h
    | none => rw [hsf] at h; cases h

theorem netArgsOf_error (env : Env) (params : LinuxSandboxParams) (e : String)
    (h : netArgsOf env params = Except.error e) :
    params.needsNetworkRestriction = true ∧
    ∃ hp sp, params.httpSocketPath = some hp ∧ params.socksSocketPath = some sp ∧
      ((env.existsSync hp = false ∧
        e = "Linux HTTP bridge socket does not exist: " ++ hp ++
          ". The bridge process may have died. Try reinitializing the sandbox.") ∨
       (env.existsSync sp = false ∧
        e = "Linux SOCKS bridge socket does not exist: " ++ sp ++
          ". The bridge process may have died. Try reinitializing the sandbox.")) := by
  unfold netArgsOf at h
  by_cases hn : params.needsNetworkRestriction = true
  case neg => rw [if_neg hn] at h; cases h
  case pos =>
    rw [if_pos hn] at h
    cases hhp : params.httpSocketPath with
    | none => rw [hhp] at h; cases h
    | some hp =>
      rw [hhp] at h
      cases hsp : params.socksSocketPath with
      | none => rw [hsp] at h; cases h
      | some sp =>
        rw [hsp] at h
        dsimp only at h
        by_cases he1 : env.existsSync hp = false
        · rw [if_pos he1] at h
          injection h with h
          exact ⟨hn, hp, sp, rfl, rfl, Or.inl ⟨he1, h.symm⟩⟩
        · rw [if_neg he1] at h
          by_cases he2 : env.existsSync sp = false
          · rw [if_pos he2] at h
            injection h with h
            exact ⟨hn, hp, sp, rfl, rfl, Or.inr ⟨he2, h.symm⟩⟩
          · rw [if_neg he2] at h
            cases h

/-- C5 (amended).  `wrapCommandWithSandboxLinux` throws only when the shell
is not found in PATH or when a requested bridge socket file is absent on
disk; missing syscall-filter tooling never causes a throw — regardless of
`allowAllUnixSockets` it degrades to a warning and compilation continues
without the filter — and per-path anomalies are silently skipped. -/
theorem c5_error_surface (env : Env) (params : LinuxSandboxParams) (e : String)
    (h : wrapCommandWithSandboxLinux env params = Except.error e) :
    (env.whichSync (params.binShell.getD "bash") = none ∧
      e = "Shell " ++ sqc ++ params.binShell.getD "bash" ++ sqc ++
        " not found in PATH") ∨
    (params.needsNetworkRestriction = true ∧
      ∃ hp sp, params.httpSocketPath = some hp ∧ params.socksSocketPath = some sp ∧
        ((env.existsSync hp = false ∧
          e = "Linux HTTP bridge socket does not exist: " ++ hp ++
            ". The bridge process may have died. Try reinitializing the sandbox.") ∨
         (env.existsSync sp = false ∧
          e = "Linux SOCKS bridge socket does not exist: " ++ sp ++
            ". The bridge process may have died. Try reinitializing the sandbox."))) := by
  unfold wrapCommandWithSandboxLinux at h
  by_cases hnr : noRestrictions params = true
  · rw [if_pos hnr] at h; cases h
  · rw [if_neg hnr] at h
    cases hnet : netArgsOf env params with
    | error e2 =>
      rw [hnet] at h
      injection h with h
      exact Or.inr (netArgsOf_error env params e (h ▸ hnet))
    | ok net =>
      rw [hnet] at h
      dsimp only at h
      cases hsh : env.whichSync (params.binShell.getD "bash") with
      | none =>
        rw [hsh] at h
        injection h with h
        refine Or.inl ⟨?_, h.symm⟩
        first
        | exact hsh
        | rfl
      | some shell =>
        rw [hsh] at h
        dsimp only at h
        cases hpay : payloadOf env params shell with
        | error e2 =>
          rw [hpay] at h
          exact absurd hpay (payloadOf_ne_error env params shell e2)
        | ok pay =>
          rw [hpay] at h
          cases h

/-- Counterexample to C5 as stated: with restrictions active, unix-socket
blocking requested (`allowAllUnixSockets = false`), and neither a
runtime-generated filter nor the apply binary available, compilation still
succeeds — the missing syscall-filter tooling does not throw. -/
theorem c5_counterexample :
    envC8.generateSeccompFilter = none ∧
    envC8.applySeccompBinary = none ∧
    paramsC8.allowAllUnixSockets = false ∧
    noRestrictions paramsC8 = false ∧
    (wrapCommandWithSandboxLinux envC8 paramsC8).toOption.isSome = true := by
  refine ⟨rfl, rfl, rfl, rfl, ?_⟩
  rfl

/-- Witness for the amended C5 at a concrete input: the only error raised
with no network bridge in play is the missing-shell error. -/
theorem c5_error_surface_witness :
    envC5sh.whichSync (paramsC8.binShell.getD "bash") = none := by
  rcases c5_error_surface envC5sh paramsC8
      ("Shell " ++ sqc ++ "bash" ++ sqc ++ " not found in PATH") (by rfl) with
    h | h
  · exact h.1
  · exact absurd h.1 (by decide)

theorem allowPasses_exists (env : Env) (n : String)
    (h : allowPasses env n = true) : env.existsSync n = true := by
  unfold allowPasses at h
  simp only [Bool.and_eq_true] at h
  exact h.1.1.2

theorem innerReplay_go (env : Env) (l : List String) (acc : List Directive)
    (d : Directive) :
    d ∈ l.foldl (fun acc p =>
      if strStartsWith p "/dev/" = true ∨ p = "/dev" then acc
      else if env.existsSync p then acc ++ [Directive.bind p p] else acc) acc ↔
    d ∈ acc ∨ ∃ p, p ∈ l ∧ d = Directive.bind p p ∧
      ¬(strStartsWith p "/dev/" = true ∨ p = "/dev") ∧ env.existsSync p = true := by
  induction l generalizing acc with
  | nil => simp
  | cons x r ih =>
    simp only [List.foldl_cons]
    by_cases hdev : strStartsWith x "/dev/" = true ∨ x = "/dev"
    · rw [if_pos hdev, ih]
      constructor
      · rintro (h | ⟨p, hp, rest⟩)
        · exact Or.inl h
        · exact Or.inr ⟨p, List.mem_cons_of_mem _ hp, rest⟩
      · rintro (h | ⟨p, hp, hd, hnd, he⟩)
        · exact Or.inl h
        · rcases List.mem_cons.mp hp with rfl | hp2
          · exact absurd hdev hnd
          · exact Or.inr ⟨p, hp2, hd, hnd, he⟩
    · rw [if_neg hdev]
      by_cases hex : env.existsSync x = true
      · rw [if_pos hex, ih]
        constructor
        · rintro (h | ⟨p, hp, rest⟩)
          · rcases List.mem_append.mp h with h2 | h2
            · exact Or.inl h2
            · have hd : d = Directive.bind x x := by simpa using h2
              exact Or.inr ⟨x, List.mem_cons_self x r, hd, hdev, hex⟩
          · exact Or.inr ⟨p, List.mem_cons_of_mem _ hp, rest⟩
        · rintro (h | ⟨p, hp, hd, hnd, he⟩)
          · exact Or.inl (List.mem_append_left _ h)
          · rcases List.mem_cons.mp hp with rfl | hp2
            · exact Or.inl (List.mem_append_right _ (by simp [hd]))
            · exact Or.inr ⟨p, hp2, hd, hnd, he⟩
      · rw [if_neg hex, ih]
        constructor
        · rintro (h | ⟨p, hp, rest⟩)
          · exact Or.inl h
          · exact Or.inr ⟨p, List.mem_cons_of_mem _ hp, rest⟩
        · rintro (h | ⟨p, hp, hd, hnd, he⟩)
          · exact Or.inl h
          · rcases List.mem_cons.mp hp with rfl | hp2
            · exact absurd he hex
            · exact Or.inr ⟨p, hp2, hd, hnd, he⟩

theorem innerReplay_mem (env : Env) (l : List String) (d : Directive) :
    d ∈ innerReplayDirectives env l ↔
      ∃ p, p ∈ l ∧ d = Directive.bind p p ∧
        ¬(strStartsWith p "/dev/" = true ∨ p = "/dev") ∧
        env.existsSync p = true := by
  unfold innerReplayDirectives
  rw [innerReplay_go]
  simp

/-- C6 (amended).  Every writable allowed-write root the outer stage mounted
(outside the `/dev` family) is replayed as a `--bind p p` in the inner
nested stage; but the inner list is the broader
`allowOnly.map(normalize).filter(existsSync)` — a path the outer stage
declined to mount for a per-path reason other than non-existence (an
unresolvable or scope-widening symlink) still appears as a writable bind of
the inner stage. -/
theorem c6_inner_replay (env : Env) (wc : FsWriteRestrictionConfig) :
    (∀ p, p ∈ (generateFilesystemArgs env none (some wc) false).allowedWritePaths →
       ¬(strStartsWith p "/dev/" = true ∨ p = "/dev") →
       Directive.bind p p ∈
         innerReplayDirectives env (wrapWritablePaths env (some wc))) ∧
    (∀ d, d ∈ innerReplayDirectives env (wrapWritablePaths env (some wc)) ↔
       ∃ p, p ∈ (wc.allowOnly.map normalizePathForSandbox).filter env.existsSync ∧
         d = Directive.bind p p ∧
         ¬(strStartsWith p "/dev/" = true ∨ p = "/dev") ∧
         env.existsSync p = true) := by
  have hww : wrapWritablePaths env (some wc) =
      (wc.allowOnly.map normalizePathForSandbox).filter env.existsSync := rfl
  constructor
  · intro p hp hdev
    rw [gen_allowed] at hp
    have hpass := (List.mem_filter.mp hp).2
    have hmem := (List.mem_filter.mp hp).1
    have hex := allowPasses_exists env p hpass
    rw [innerReplay_mem, hww]
    exact ⟨p, List.mem_filter.mpr ⟨hmem, hex⟩, rfl, hdev, hex⟩
  · intro d
    rw [innerReplay_mem, hww]

/-- Counterexample to C6 as stated: `/tmp/claude` is a scope-widening
symlink (it resolves to `/`), so the outer stage declines to mount it — no
`--bind /tmp/claude /tmp/claude` directive and no allowed-write-root entry —
yet the inner nested stage, which replays `allowOnly` filtered only by
existence, emits exactly that writable bind. -/
theorem c6_counterexample :
    "/tmp/claude" ∉
      (generateFilesystemArgs envC6 none (some wcC1) false).allowedWritePaths ∧
    Directive.bind "/tmp/claude" "/tmp/claude" ∉
      (generateFilesystemArgs envC6 none (some wcC1) false).args ∧
    Directive.bind "/tmp/claude" "/tmp/claude" ∈
      innerReplayDirectives envC6 (wrapWritablePaths envC6 (some wcC1)) := by
  decide

/-- Witness for the amended C6: an outer-mounted root is replayed inside,
and the inner list admits the widening symlink the outer stage skipped. -/
theorem c6_inner_replay_witness :
    Directive.bind "/w" "/w" ∈
      innerReplayDirectives envC8 (wrapWritablePaths envC8 (some wcC8)) ∧
    Directive.bind "/tmp/claude" "/tmp/claude" ∈
      innerReplayDirectives envC6 (wrapWritablePaths envC6 (some wcC1)) :=
  ⟨(c6_inner_replay envC8 wcC8).1 "/w" (by decide) (by decide),
   ((c6_inner_replay envC6 wcC1).2 (Directive.bind "/tmp/claude" "/tmp/claude")).mpr
     ⟨"/tmp/claude", by decide, rfl, by decide, by decide⟩⟩

theorem dedup_mem (l : List String) (p : String) :
    p ∈ dedupKeepFirst l ↔ p ∈ l := by
  induction l with
  | nil => simp [dedupKeepFirst]
  | cons x xs ih =>
    simp only [dedupKeepFirst, List.mem_cons]
    constructor
    · rintro (h | h)
      · exact Or.inl h
      · exact Or.inr (ih.mp (List.mem_filter.mp h).1)
    · rintro (h | h)
      · exact Or.inl h
      · by_cases hx : p = x
        · exact Or.inl hx
        · exact Or.inr (List.mem_filter.mpr ⟨ih.mpr h, by simpa using hx⟩)

theorem string_append_assoc (a b c : String) : a ++ b ++ c = a ++ (b ++ c) := by
  apply String.ext
  simp [string_data_append]

theorem string_append_cancel_left (a b c : String) (h : a ++ b = a ++ c) :
    b = c := by
  apply String.ext
  have hd : (a ++ b).data = (a ++ c).data := by rw [h]
  rw [string_data_append, string_data_append] at hd
  exact List.append_cancel_left hd

theorem strStartsWith_cancel (a b c : String) :
    strStartsWith (a ++ b) (a ++ c) = strStartsWith b c := by
  rw [Bool.eq_iff_iff, strStartsWith_iff, strStartsWith_iff,
    string_data_append, string_data_append]
  exact List.prefix_append_right_inj a.data

theorem findIdxQ_spec {α : Type} (p : α → Bool) :
    ∀ (l : List α) (i : Nat), l.findIdx? p = some i →
      ∃ h : i < l.length, p (l.get ⟨i, h⟩) = true := by
  intro l
  induction l with
  | nil => intro i h; simp [List.findIdx?_nil] at h
  | cons x xs ih =>
    intro i h
    rw [List.findIdx?_cons] at h
    by_cases hx : p x = true
    · rw [if_pos hx] at h
      injection h with h
      subst h
      exact ⟨Nat.succ_pos _, hx⟩
    · rw [if_neg hx, List.findIdx?_succ] at h
      cases hi : xs.findIdx? p with
      | none => rw [hi] at h; simp at h
      | some j =>
        rw [hi] at h
        have hji : j + 1 = i := by simpa using h
        subst hji
        obtain ⟨hj, hpj⟩ := ih j hi
        exact ⟨Nat.succ_lt_succ hj, by simpa using hpj⟩

theorem segmentIndexOf_spec (segs : List String) (d : String) (i : Nat)
    (h : segmentIndexOf segs d = some i) :
    ∃ hlt : i < segs.length,
      normalizeCaseForComparison (segs.get ⟨i, hlt⟩) =
        normalizeCaseForComparison d := by
  obtain ⟨hlt, hp⟩ := findIdxQ_spec _ segs i h
  exact ⟨hlt, by simpa using hp⟩

theorem sepJoin_append (a b : List String) (ha : a ≠ []) (hb : b ≠ []) :
    sepJoin (a ++ b) = sepJoin a ++ "/" ++ sepJoin b := by
  unfold sepJoin
  rw [List.map_append, sepJoinChars_append _ _ (by simpa using ha) (by simpa using hb)]
  apply String.ext
  simp [string_data_append]

theorem sepJoin_take_prefix (l : List String) (k : Nat) :
    (sepJoin (l.take k)).data <+: (sepJoin l).data := by
  by_cases hk : l.length ≤ k
  · rw [List.take_of_length_le hk]
  · push_neg at hk
    by_cases hk0 : k = 0
    · subst hk0
      rw [List.take_zero]
      exact List.nil_prefix
    · have h1 : l.take k ≠ [] := by
        intro hcon
        have := congrArg List.length hcon
        rw [List.length_take] at this
        simp only [List.length_nil] at this
        omega
      have h2 : l.drop k ≠ [] := by
        intro hcon
        have := congrArg List.length hcon
        rw [List.length_drop] at this
        simp only [List.length_nil] at this
        omega
      conv_rhs => rw [← List.take_append_drop k l]
      rw [sepJoin_append _ _ h1 h2, string_data_append, string_data_append,
        List.append_assoc]
      exact List.prefix_append _ _

theorem prefix_trim {a b c : List Char} (h : a <+: b ++ c)
    (hl : a.length ≤ b.length) : a <+: b := by
  rw [List.prefix_iff_eq_take] at h ⊢
  rwa [List.take_append_of_le_length hl] at h

theorem sepJoin_take_last (segs : List String) (i : Nat) (hlt : i < segs.length)
    (hne : (segs.get ⟨i, hlt⟩).data ≠ []) :
    (sepJoin (segs.take (i + 1))).data.getLast? =
      (segs.get ⟨i, hlt⟩).data.getLast? := by
  have htake : segs.take (i + 1) = segs.take i ++ [segs.get ⟨i, hlt⟩] := by
    rw [List.take_succ]
    congr 1
    rw [List.getElem?_eq_getElem hlt]
    rfl
  rw [htake]
  by_cases h0 : segs.take i = []
  · rw [h0, List.nil_append]
    rfl
  · rw [sepJoin_append _ _ h0 (by simp)]
    have hs : sepJoin [segs.get ⟨i, hlt⟩] = segs.get ⟨i, hlt⟩ := rfl
    rw [hs, string_append_assoc, string_data_append]
    rw [List.getLast?_append_of_ne_nil _ (by
      rw [string_data_append]
      simp [hne])]
    rw [string_data_append]
    rw [List.getLast?_append_of_ne_nil _ hne]

theorem prefix_slash_end (t : List Char) (hsl : '/' ∉ t) :
    ∀ r, r <+: ('/' :: t) → r.getLast? = some '/' → r = ['/'] := by
  intro r hr hlast
  cases r with
  | nil => simp at hlast
  | cons c r2 =>
    obtain ⟨hc, hr2⟩ : c = '/' ∧ r2 <+: t := by
      rcases hr with ⟨s, hs⟩
      injection hs with h1 h2
      exact ⟨h1, ⟨s, h2⟩⟩
    subst hc
    cases r2 with
    | nil => rfl
    | cons d r3 =>
      rw [List.getLast?_cons_cons] at hlast
      have hmem : '/' ∈ d :: r3 := List.mem_of_mem_getLast? hlast
      exact absurd (hr2.subset hmem) hsl

theorem gitSegment_facts (s : String)
    (h : normalizeCaseForComparison s = normalizeCaseForComparison ".git") :
    s.data ≠ [] ∧ '/' ∉ s.data := by
  have hd : s.data.map Char.toLower = ['.', 'g', 'i', 't'] := by
    have := congrArg String.data h
    simpa [normalizeCaseForComparison] using this
  constructor
  · intro hcon
    rw [hcon] at hd
    simp at hd
  · intro hcon
    have : Char.toLower '/' ∈ s.data.map Char.toLower :=
      List.mem_map_of_mem Char.toLower hcon
    rw [hd] at this
    have hlow : Char.toLower '/' = '/' := by decide
    rw [hlow] at this
    simp at this

theorem matchLoopDirs_spec (m : String) (segs : List String) :
    ∀ (dirs : List String) (ps : List String),
      matchLoopDirs m segs dirs = some ps →
      ∃ dirName, dirName ∈ dirs ∧ ∃ i, segmentIndexOf segs dirName = some i ∧
        ((dirName = ".git" ∧
           ((strIncludes m ".git/hooks" = true ∧
             ps = [sepJoin (segs.take (i + 1)) ++ "/hooks"]) ∨
            (strIncludes m ".git/hooks" = false ∧
             strIncludes m ".git/config" = true ∧
             ps = [sepJoin (segs.take (i + 1)) ++ "/config"]) ∨
            (strIncludes m ".git/hooks" = false ∧
             strIncludes m ".git/config" = false ∧ ps = []))) ∨
         (dirName ≠ ".git" ∧ ps = [sepJoin (segs.take (i + 1))])) := by
  intro dirs
  induction dirs with
  | nil => intro ps h; simp [matchLoopDirs] at h
  | cons d rest ih =>
    intro ps h
    unfold matchLoopDirs at h
    cases hidx : segmentIndexOf segs d with
    | none =>
      rw [hidx] at h
      obtain ⟨dn, hdn, hrest⟩ := ih ps h
      exact ⟨dn, List.mem_cons_of_mem _ hdn, hrest⟩
    | some i =>
      rw [hidx] at h
      dsimp only at h
      by_cases hg : d = ".git"
      · rw [if_pos hg] at h
        by_cases hh : strIncludes m ".git/hooks" = true
        · rw [if_pos hh] at h
          injection h with h
          exact ⟨d, List.mem_cons_self _ _, i, hidx,
            Or.inl ⟨hg, Or.inl ⟨hh, h.symm⟩⟩⟩
        · rw [if_neg hh] at h
          by_cases hc : strIncludes m ".git/config" = true
          · rw [if_pos hc] at h
            injection h with h
            exact ⟨d, List.mem_cons_self _ _, i, hidx,
              Or.inl ⟨hg, Or.inr (Or.inl
                ⟨Bool.eq_false_iff.mpr hh, hc, h.symm⟩)⟩⟩
          · rw [if_neg hc] at h
            injection h with h
            exact ⟨d, List.mem_cons_self _ _, i, hidx,
              Or.inl ⟨hg, Or.inr (Or.inr
                ⟨Bool.eq_false_iff.mpr hh, Bool.eq_false_iff.mpr hc, h.symm⟩)⟩⟩
      · rw [if_neg hg] at h
        injection h with h
        exact ⟨d, List.mem_cons_self _ _, i, hidx, Or.inr ⟨hg, h.symm⟩⟩

theorem processMatch_mem (cwd m p : String) (hp : p ∈ processMatch cwd m) :
    (p = absResolve cwd m) ∨
    (∃ dirName i, dirName ∈ getDangerousDirectories ++ [".git"] ∧
      segmentIndexOf (splitSep (absResolve cwd m)) dirName = some i ∧
      ((dirName = ".git" ∧
         ((strIncludes m ".git/hooks" = true ∧
           p = sepJoin ((splitSep (absResolve cwd m)).take (i + 1)) ++ "/hooks") ∨
          (strIncludes m ".git/config" = true ∧
           p = sepJoin ((splitSep (absResolve cwd m)).take (i + 1)) ++ "/config"))) ∨
       (dirName ≠ ".git" ∧
        p = sepJoin ((splitSep (absResolve cwd m)).take (i + 1))))) := by
  unfold processMatch at hp
  cases hml : matchLoopDirs m (splitSep (absResolve cwd m))
      (getDangerousDirectories ++ [".git"]) with
  | none =>
    rw [hml] at hp
    left
    simpa using hp
  | some ps =>
    rw [hml] at hp
    obtain ⟨dn, hdn, i, hidx, hcase⟩ := matchLoopDirs_spec m _ _ ps hml
    right
    refine ⟨dn, i, hdn, hidx, ?_⟩
    rcases hcase with ⟨hgit, hsub⟩ | ⟨hng, hps⟩
    · left
      refine ⟨hgit, ?_⟩
      rcases hsub with ⟨hh, hps⟩ | ⟨_, hc, hps⟩ | ⟨_, _, hps⟩
      · left
        exact ⟨hh, by rw [hps] at hp; simpa using hp⟩
      · right
        exact ⟨hc, by rw [hps] at hp; simpa using hp⟩
      · rw [hps] at hp
        simp at hp
    · right
      exact ⟨hng, by rw [hps] at hp; simpa using hp⟩

theorem gitPush_not_under (cwd m suffix : String) (i : Nat) (t : List Char)
    (hsuf : suffix.data = '/' :: t) (hst : '/' ∉ t) (hmne : m ≠ ".git")
    (hidx : segmentIndexOf (splitSep (absResolve cwd m)) ".git" = some i)
    (hm : ¬ (absResolve cwd ".git" ++ "/").data <+: (absResolve cwd m).data) :
    ¬ (absResolve cwd ".git" ++ "/").data <+:
      (sepJoin ((splitSep (absResolve cwd m)).take (i + 1)) ++ suffix).data := by
  intro hsp
  obtain ⟨hlt, hnorm⟩ := segmentIndexOf_spec _ _ _ hidx
  obtain ⟨hne, hsl⟩ := gitSegment_facts _ hnorm
  have habs : sepJoin (splitSep (absResolve cwd m)) = absResolve cwd m :=
    sepJoin_splitSep _
  have hgd := sepJoin_take_prefix (splitSep (absResolve cwd m)) (i + 1)
  rw [habs] at hgd
  rw [string_data_append] at hsp
  have hor := List.prefix_or_prefix_of_prefix hsp
    (List.prefix_append (sepJoin ((splitSep (absResolve cwd m)).take (i + 1))).data
      suffix.data)
  rcases hor with hpg | hgp
  · apply hm
    rw [string_data_append]
    exact hpg.trans hgd
  · obtain ⟨r, hr⟩ := hgp
    have hrs : r <+: suffix.data := by
      have h2 : (sepJoin ((splitSep (absResolve cwd m)).take (i + 1))).data ++ r <+:
          (sepJoin ((splitSep (absResolve cwd m)).take (i + 1))).data ++
            suffix.data := by
        rw [hr]
        exact hsp
      exact (List.prefix_append_right_inj _).mp h2
    have hpe2 : ((absResolve cwd ".git").data ++ "/".data).getLast? = some '/' := by
      rw [List.getLast?_append_of_ne_nil _ (by decide)]
      rfl
    have hlast : (sepJoin ((splitSep (absResolve cwd m)).take (i + 1))).data.getLast? =
        ((splitSep (absResolve cwd m)).get ⟨i, hlt⟩).data.getLast? :=
      sepJoin_take_last _ _ hlt hne
    by_cases hrn : r = []
    · rw [hrn, List.append_nil] at hr
      have h5 : ((splitSep (absResolve cwd m)).get ⟨i, hlt⟩).data.getLast? =
          some '/' := by
        rw [← hlast, hr]
        exact hpe2
      exact hsl (List.mem_of_mem_getLast? h5)
    · have hrl : r.getLast? = some '/' := by
        rw [← hr] at hpe2
        rwa [List.getLast?_append_of_ne_nil _ hrn] at hpe2
      have hr1 : r = ['/'] := by
        apply prefix_slash_end t hst r _ hrl
        rw [hsuf] at hrs
        exact hrs
      rw [hr1] at hr
      have hgde : (sepJoin ((splitSep (absResolve cwd m)).take (i + 1))).data =
          (absResolve cwd ".git").data :=
        List.append_cancel_right hr
      by_cases hend : i + 1 < (splitSep (absResolve cwd m)).length
      · have htk : (splitSep (absResolve cwd m)).take (i + 1) ≠ [] := by
          intro hcon2
          have := congrArg List.length hcon2
          rw [List.length_take] at this
          simp only [List.length_nil] at this
          omega
        have hdr : (splitSep (absResolve cwd m)).drop (i + 1) ≠ [] := by
          intro hcon2
          have := congrArg List.length hcon2
          rw [List.length_drop] at this
          simp only [List.length_nil] at this
          omega
        have habs2 : absResolve cwd m =
            sepJoin ((splitSep (absResolve cwd m)).take (i + 1)) ++ "/" ++
              sepJoin ((splitSep (absResolve cwd m)).drop (i + 1)) := by
          conv_lhs => rw [← habs]
          conv_lhs => rw [← List.take_append_drop (i + 1) (splitSep (absResolve cwd m))]
          rw [sepJoin_append _ _ htk hdr]
        apply hm
        rw [string_data_append, habs2, string_append_assoc, string_data_append,
          ← hgde, string_data_append]
        apply (List.prefix_append_right_inj _).mpr
        exact List.prefix_append _ _
      · have htake : (splitSep (absResolve cwd m)).take (i + 1) =
            splitSep (absResolve cwd m) :=
          List.take_of_length_le (by omega)
        have hgall : sepJoin ((splitSep (absResolve cwd m)).take (i + 1)) =
            absResolve cwd m := by
          rw [htake, habs]
        have hgds : sepJoin ((splitSep (absResolve cwd m)).take (i + 1)) =
            absResolve cwd ".git" := by
          apply String.ext
          exact hgde
        have hmeq0 : absResolve cwd m = absResolve cwd ".git" := by
          rw [← hgall, hgds]
        unfold absResolve at hmeq0
        rw [string_append_assoc, string_append_assoc] at hmeq0
        have h3 := string_append_cancel_left _ _ _ hmeq0
        have h4 := string_append_cancel_left _ _ _ h3
        exact hmne h4

theorem absResolve_inj (c a b : String) (h : absResolve c a = absResolve c b) :
    a = b := by
  unfold absResolve at h
  rw [string_append_assoc, string_append_assoc] at h
  have h2 := string_append_cancel_left _ _ _ h
  exact string_append_cancel_left _ _ _ h2

theorem startsWith_res_git (c f : String) :
    strStartsWith (absResolve c f) (absResolve c ".git" ++ "/") =
      strStartsWith f (".git" ++ "/") := by
  unfold absResolve
  rw [string_append_assoc (c ++ "/") ".git" "/"]
  exact strStartsWith_cancel (c ++ "/") f (".git" ++ "/")

theorem lgmdp_dir (env : Env) (agc : Bool)
    (h : env.statSync (absResolve env.cwd ".git") = some StatNode.dir) :
    linuxGetMandatoryDenyPaths env agc =
      dedupKeepFirst
        ((DANGEROUS_FILES.map (fun f => absResolve env.cwd f) ++
          getDangerousDirectories.map (fun d => absResolve env.cwd d)) ++
         ([absResolve env.cwd ".git/hooks"] ++
          (if agc = false then [absResolve env.cwd ".git/config"] else [])) ++
         (env.ripgrepMatches.map (processMatch env.cwd)).flatten) := by
  unfold linuxGetMandatoryDenyPaths
  simp only [h]
  rfl

theorem lgmdp_nodir (env : Env) (agc : Bool)
    (h : env.statSync (absResolve env.cwd ".git") ≠ some StatNode.dir) :
    linuxGetMandatoryDenyPaths env agc =
      dedupKeepFirst
        ((DANGEROUS_FILES.map (fun f => absResolve env.cwd f) ++
          getDangerousDirectories.map (fun d => absResolve env.cwd d)) ++
         (env.ripgrepMatches.map (processMatch env.cwd)).flatten) := by
  unfold linuxGetMandatoryDenyPaths
  dsimp only
  rw [if_neg (by simpa using h)]
  rw [List.append_nil]

theorem hooksPush_ne_config (cwd g : String) :
    g ++ "/hooks" ≠ absResolve cwd ".git/config" := by
  intro h
  have h2 := congrArg (fun q : String => q.data.getLast?) h
  simp only [string_data_append] at h2
  rw [List.getLast?_append_of_ne_nil _
    (by decide : ("/hooks" : String).data ≠ [])] at h2
  unfold absResolve at h2
  rw [string_data_append, string_data_append,
    List.getLast?_append_of_ne_nil _
      (by decide : (".git/config" : String).data ≠ [])] at h2
  exact absurd h2 (by decide)

theorem dirPush_ne_config (cwd m dn : String) (i : Nat)
    (hdn : dn ∈ getDangerousDirectories)
    (hidx : segmentIndexOf (splitSep (absResolve cwd m)) dn = some i) :
    sepJoin ((splitSep (absResolve cwd m)).take (i + 1)) ≠
      absResolve cwd ".git/config" := by
  intro hcon
  obtain ⟨hlt, hnorm⟩ := segmentIndexOf_spec _ _ _ hidx
  have hmap : ((splitSep (absResolve cwd m)).get ⟨i, hlt⟩).data.map Char.toLower =
      (normalizeCaseForComparison dn).data := by
    have := congrArg String.data hnorm
    simpa [normalizeCaseForComparison] using this
  have hdn4 : dn = ".vscode" ∨ dn = ".idea" ∨ dn = ".claude/commands" ∨
      dn = ".claude/agents" := by
    simpa [getDangerousDirectories] using hdn
  have hne : ((splitSep (absResolve cwd m)).get ⟨i, hlt⟩).data ≠ [] := by
    intro h0
    rw [h0] at hmap
    rcases hdn4 with rfl | rfl | rfl | rfl <;>
      exact absurd hmap.symm (by decide)
  have hlastp := sepJoin_take_last _ _ hlt hne
  have htl : (absResolve cwd ".git/config").data.getLast? = some 'g' := by
    unfold absResolve
    rw [string_data_append, string_data_append,
      List.getLast?_append_of_ne_nil _
        (by decide : (".git/config" : String).data ≠ [])]
    rfl
  rw [hcon, htl] at hlastp
  have hml : (((splitSep (absResolve cwd m)).get ⟨i, hlt⟩).data.map
      Char.toLower).getLast? = some 'g' := by
    rw [List.getLast?_map, ← hlastp]
    rfl
  rw [hmap] at hml
  rcases hdn4 with rfl | rfl | rfl | rfl <;> exact absurd hml (by decide)

theorem processMatch_not_under_git (cwd m : String)
    (hm : strStartsWith (absResolve cwd m) (absResolve cwd ".git" ++ "/") = false) :
    ∀ p ∈ processMatch cwd m,
      strStartsWith p (absResolve cwd ".git" ++ "/") = false := by
  intro p hp
  have hmP : ¬ (absResolve cwd ".git" ++ "/").data <+: (absResolve cwd m).data := by
    intro hP
    have h2 := (strStartsWith_iff _ _).mpr hP
    rw [hm] at h2
    exact Bool.false_ne_true h2
  cases hsw : strStartsWith p (absResolve cwd ".git" ++ "/") with
  | false => rfl
  | true =>
    exfalso
    have hpp : (absResolve cwd ".git" ++ "/").data <+: p.data :=
      (strStartsWith_iff _ _).mp hsw
    rcases processMatch_mem cwd m p hp with hfall | ⟨dn, i, hdn, hidx, hcase⟩
    · rw [hfall] at hpp
      exact hmP hpp
    · rcases hcase with ⟨hgit, hsub⟩ | ⟨hng, hpv⟩
      · subst hgit
        rcases hsub with ⟨hh, hpv⟩ | ⟨hc, hpv⟩
        · have hmne : m ≠ ".git" := by
            intro hcon
            rw [hcon] at hh
            exact absurd hh (by decide)
          rw [hpv] at hpp
          exact gitPush_not_under cwd m "/hooks" i "hooks".data rfl (by decide)
            hmne hidx hmP hpp
        · have hmne : m ≠ ".git" := by
            intro hcon
            rw [hcon] at hc
            exact absurd hc (by decide)
          rw [hpv] at hpp
          exact gitPush_not_under cwd m "/config" i "config".data rfl (by decide)
            hmne hidx hmP hpp
      · rw [hpv] at hpp
        have hgd := sepJoin_take_prefix (splitSep (absResolve cwd m)) (i + 1)
        rw [sepJoin_splitSep] at hgd
        exact hmP (hpp.trans hgd)

theorem matchLoopDirs_cons_none (m : String) (segs : List String) (d : String)
    (rest : List String) (h : segmentIndexOf segs d = none) :
    matchLoopDirs m segs (d :: rest) = matchLoopDirs m segs rest := by
  conv_lhs => rw [matchLoopDirs]
  rw [h]

theorem matchLoopDirs_git_found (m : String) (segs : List String) (i : Nat)
    (h : segmentIndexOf segs ".git" = some i) :
    matchLoopDirs m segs [".git"] =
      some (if strIncludes m ".git/hooks" = true then
              [sepJoin (segs.take (i + 1)) ++ "/hooks"]
            else if strIncludes m ".git/config" = true then
              [sepJoin (segs.take (i + 1)) ++ "/config"]
            else []) := by
  conv_lhs => rw [matchLoopDirs]
  rw [h]
  dsimp only
  rw [if_pos (rfl : (".git" : String) = ".git")]
  by_cases hh : strIncludes m ".git/hooks" = true
  · rw [if_pos hh, if_pos hh]
  · rw [if_neg hh, if_neg hh]
    by_cases hc : strIncludes m ".git/config" = true
    · rw [if_pos hc, if_pos hc]
    · rw [if_neg hc, if_neg hc]

theorem matchLoopDirs_git_only (m : String) (segs : List String) (i : Nat)
    (hnone : ∀ dn ∈ getDangerousDirectories, segmentIndexOf segs dn = none)
    (hgit : segmentIndexOf segs ".git" = some i) :
    matchLoopDirs m segs (getDangerousDirectories ++ [".git"]) =
      some (if strIncludes m ".git/hooks" = true then
              [sepJoin (segs.take (i + 1)) ++ "/hooks"]
            else if strIncludes m ".git/config" = true then
              [sepJoin (segs.take (i + 1)) ++ "/config"]
            else []) := by
  have h1 := hnone ".vscode" (by decide)
  have h2 := hnone ".idea" (by decide)
  have h3 := hnone ".claude/commands" (by decide)
  have h4 := hnone ".claude/agents" (by decide)
  show matchLoopDirs m segs
    (".vscode" :: ".idea" :: ".claude/commands" :: ".claude/agents" :: [".git"]) = _
  rw [matchLoopDirs_cons_none _ _ _ _ h1, matchLoopDirs_cons_none _ _ _ _ h2,
    matchLoopDirs_cons_none _ _ _ _ h3, matchLoopDirs_cons_none _ _ _ _ h4,
    matchLoopDirs_git_found _ _ _ hgit]

theorem lgmdp_match_mem (env : Env) (agc : Bool) (m p : String)
    (hm : m ∈ env.ripgrepMatches) (hp : p ∈ processMatch env.cwd m) :
    p ∈ linuxGetMandatoryDenyPaths env agc := by
  unfold linuxGetMandatoryDenyPaths
  dsimp only
  rw [dedup_mem]
  apply List.mem_append_right
  rw [List.mem_flatten]
  exact ⟨processMatch env.cwd m, List.mem_map_of_mem _ hm, hp⟩

/-- C4.  (i) When `cwd/.git` stats as a directory, the mandatory deny list
contains `cwd/.git/hooks`, and contains `cwd/.git/config` exactly when
`allowGitConfig` is false (assuming, per the source's ripgrep invocation,
that the `.git/config` iglob was omitted when `allowGitConfig` is set).
(ii) When `cwd/.git` is absent or a regular file (worktree), no deny entry
lies under `cwd/.git/` (assuming ripgrep, which lists existing files, reports
nothing under a non-directory `.git`).
(iii) For every nested repository found by the bounded scan — a match whose
resolved path carries a `.git` component — that nested `.git` is a directory
on the host (assuming ripgrep reports only existing files, whose ancestor
components are directories); and when the scan's directory loop reaches the
`.git` component, `<that .git>/hooks` is added whenever the match names the
hooks subtree, and `<that .git>/config` is added for a config match only
with `allowGitConfig` false. -/
theorem c4_git_layout (env : Env) (agc : Bool)
    (HA : env.statSync (absResolve env.cwd ".git") ≠ some StatNode.dir →
       ∀ m ∈ env.ripgrepMatches,
         strStartsWith (absResolve env.cwd m)
           (absResolve env.cwd ".git" ++ "/") = false)
    (HB : agc = true → ∀ m ∈ env.ripgrepMatches,
       strIncludes m ".git/config" = false)
    (HC : ∀ m ∈ env.ripgrepMatches, ∀ j,
       j < (splitSep (absResolve env.cwd m)).length →
       normalizeCaseForComparison ((splitSep (absResolve env.cwd m)).getD j "") =
         normalizeCaseForComparison ".git" →
       env.statSync (sepJoin ((splitSep (absResolve env.cwd m)).take (j + 1))) =
         some StatNode.dir) :
    (env.statSync (absResolve env.cwd ".git") = some StatNode.dir →
       absResolve env.cwd ".git/hooks" ∈ linuxGetMandatoryDenyPaths env agc ∧
       (absResolve env.cwd ".git/config" ∈ linuxGetMandatoryDenyPaths env agc ↔
         agc = false)) ∧
    (env.statSync (absResolve env.cwd ".git") ≠ some StatNode.dir →
       ∀ p ∈ linuxGetMandatoryDenyPaths env agc,
         strStartsWith p (absResolve env.cwd ".git" ++ "/") = false) ∧
    (∀ m ∈ env.ripgrepMatches, ∀ i2,
       segmentIndexOf (splitSep (absResolve env.cwd m)) ".git" = some i2 →
       env.statSync (sepJoin ((splitSep (absResolve env.cwd m)).take (i2 + 1))) =
         some StatNode.dir ∧
       ((∀ dn ∈ getDangerousDirectories,
           segmentIndexOf (splitSep (absResolve env.cwd m)) dn = none) →
        (strIncludes m ".git/hooks" = true →
           sepJoin ((splitSep (absResolve env.cwd m)).take (i2 + 1)) ++ "/hooks" ∈
             linuxGetMandatoryDenyPaths env agc) ∧
        (strIncludes m ".git/hooks" = false →
         strIncludes m ".git/config" = true →
           agc = false ∧
           sepJoin ((splitSep (absResolve env.cwd m)).take (i2 + 1)) ++ "/config" ∈
             linuxGetMandatoryDenyPaths env agc))) := by
  refine ⟨?_, ?_, ?_⟩
  · intro hdir
    rw [lgmdp_dir env agc hdir]
    constructor
    · rw [dedup_mem]
      apply List.mem_append_left
      apply List.mem_append_right
      apply List.mem_append_left
      simp
    · constructor
      · intro hmem
        by_contra hagc
        have hagct : agc = true := by
          revert hagc
          cases agc <;> simp
        rw [dedup_mem] at hmem
        rcases List.mem_append.mp hmem with hmem1 | hmatch
        · rcases List.mem_append.mp hmem1 with hbase | hgitp
          · rcases List.mem_append.mp hbase with hf | hd
            · obtain ⟨f, hfmem, hfe⟩ := List.mem_map.mp hf
              have hfq := absResolve_inj _ _ _ hfe
              rw [hfq] at hfmem
              exact absurd hfmem (by decide)
            · obtain ⟨d, hdmem, hde⟩ := List.mem_map.mp hd
              have hdq := absResolve_inj _ _ _ hde
              rw [hdq] at hdmem
              exact absurd hdmem (by decide)
          · rw [hagct] at hgitp
            simp only [Bool.true_eq_false, if_false, List.append_nil] at hgitp
            have hq := absResolve_inj _ _ _ (by simpa using hgitp)
            exact absurd hq (by decide)
        · rw [List.mem_flatten] at hmatch
          obtain ⟨ps, hps, hpin⟩ := hmatch
          obtain ⟨m, hmm, hpm⟩ := List.mem_map.mp hps
          rw [← hpm] at hpin
          rcases processMatch_mem env.cwd m _ hpin with hfall |
            ⟨dn, i, hdn, hidx, hcase⟩
          · have hmeq := absResolve_inj _ _ _ hfall.symm
            have hbc := HB hagct m hmm
            rw [hmeq] at hbc
            exact absurd hbc (by decide)
          · rcases hcase with ⟨hgit, hsub⟩ | ⟨hng, hpv⟩
            · subst hgit
              rcases hsub with ⟨hh, hpv⟩ | ⟨hc, hpv⟩
              · exact hooksPush_ne_config env.cwd _ hpv.symm
              · have hbc := HB hagct m hmm
                rw [hc] at hbc
                exact Bool.noConfusion hbc
            · have hdn2 : dn ∈ getDangerousDirectories := by
                rcases List.mem_append.mp hdn with h1 | h1
                · exact h1
                · exact absurd (by simpa using h1) hng
              exact dirPush_ne_config env.cwd m dn i hdn2 hidx hpv.symm
      · intro hfalse
        rw [dedup_mem]
        apply List.mem_append_left
        apply List.mem_append_right
        apply List.mem_append_right
        rw [if_pos hfalse]
        simp
  · intro hnodir p hp
    rw [lgmdp_nodir env agc hnodir, dedup_mem] at hp
    rcases List.mem_append.mp hp with hbase | hmatch
    · rcases List.mem_append.mp hbase with hf | hd
      · obtain ⟨f, hfmem, hfe⟩ := List.mem_map.mp hf
        rw [← hfe, startsWith_res_git]
        fin_cases hfmem <;> decide
      · obtain ⟨d, hdmem, hde⟩ := List.mem_map.mp hd
        rw [← hde, startsWith_res_git]
        fin_cases hdmem <;> decide
    · rw [List.mem_flatten] at hmatch
      obtain ⟨ps, hps, hpin⟩ := hmatch
      obtain ⟨m, hmm, hpm⟩ := List.mem_map.mp hps
      rw [← hpm] at hpin
      exact processMatch_not_under_git env.cwd m (HA hnodir m hmm) p hpin
  · intro m hm i2 hidx
    obtain ⟨hlt, hnorm⟩ := segmentIndexOf_spec _ _ _ hidx
    have hgetd : (splitSep (absResolve env.cwd m)).getD i2 "" =
        (splitSep (absResolve env.cwd m)).get ⟨i2, hlt⟩ := by
      rw [List.getD_eq_getElem _ _ hlt]
      rfl
    have hdir := HC m hm i2 hlt (by rw [hgetd]; exact hnorm)
    refine ⟨hdir, ?_⟩
    intro hnone
    have hpm : processMatch env.cwd m =
        (if strIncludes m ".git/hooks" = true then
           [sepJoin ((splitSep (absResolve env.cwd m)).take (i2 + 1)) ++ "/hooks"]
         else if strIncludes m ".git/config" = true then
           [sepJoin ((splitSep (absResolve env.cwd m)).take (i2 + 1)) ++ "/config"]
         else []) := by
      unfold processMatch
      rw [matchLoopDirs_git_only m _ i2 hnone hidx]
    constructor
    · intro hhooks
      apply lgmdp_match_mem env agc m _ hm
      rw [hpm, if_pos hhooks]
      simp
    · intro hnh hcfg
      refine ⟨?_, ?_⟩
      · by_cases hagc : agc = true
        · have hbc := HB hagc m hm
          rw [hcfg] at hbc
          exact Bool.noConfusion hbc
        · exact Bool.eq_false_iff.mpr hagc
      · apply lgmdp_match_mem env agc m _ hm
        rw [hpm, if_neg (by rw [hnh]; exact Bool.false_ne_true), if_pos hcfg]
        simp


/-- Witness for C4: with `/repo/.git` and the nested `/repo/sub/.git` both
directories and a nested hooks match, cwd hooks/config and the nested
`.git/hooks` are all denied; with no `.git` at all, a sample deny entry is
not under `/repo/.git/`. -/
theorem c4_git_layout_witness :
    ((absResolve envC4.cwd ".git/hooks" ∈ linuxGetMandatoryDenyPaths envC4 false ∧
      (absResolve envC4.cwd ".git/config" ∈ linuxGetMandatoryDenyPaths envC4 false ↔
        (false : Bool) = false)) ∧
     (envC4.statSync
        (sepJoin ((splitSep (absResolve envC4.cwd "sub/.git/hooks/pre-commit")).take
          4)) = some StatNode.dir ∧
      sepJoin ((splitSep (absResolve envC4.cwd "sub/.git/hooks/pre-commit")).take 4)
        ++ "/hooks" ∈ linuxGetMandatoryDenyPaths envC4 false)) ∧
    strStartsWith (absResolve envC4b.cwd ".bashrc")
      (absResolve envC4b.cwd ".git" ++ "/") = false :=
  have h4 := c4_git_layout envC4 false (fun hcon => absurd (by decide) hcon)
    (fun h => absurd h (by decide)) (by decide)
  have h5 := h4.2.2 "sub/.git/hooks/pre-commit" (by decide) 3 (by decide)
  ⟨⟨h4.1 (by decide), ⟨h5.1, (h5.2 (by decide)).1 (by decide)⟩⟩,
   (c4_git_layout envC4b false (fun _ => by decide)
      (fun h => absurd h (by decide)) (by decide)).2.1 (by decide)
      (absResolve envC4b.cwd ".bashrc") (by decide)⟩
theorem ancestorChain_mem (ds : List String) (h : GoodComps ds) (k : Nat)
    (hk : k ≤ ds.length) :
    joinPath (ds.take k) ∈ ancestorChainOf (joinPath ds) := by
  unfold ancestorChainOf
  rw [pathComps_joinPath ds h]
  apply List.mem_map.mpr
  refine ⟨ds.length - k, ?_, ?_⟩
  · rw [List.mem_range]
    omega
  · have h3 : ds.length - (ds.length - k) = k := by omega
    rw [h3]

theorem globBase_canon (p : String) :
    ∃ ds, GoodComps ds ∧ globBase (normalizePathForSandbox p) = joinPath ds := by
  obtain ⟨cs, hcs, hp⟩ := normalize_isCanon p
  unfold globBase
  by_cases hw : hasWildcard (normalizePathForSandbox p) = true
  · rw [if_pos hw, hp, pathComps_joinPath cs hcs]
    exact ⟨cs.takeWhile (fun c => !hasWildcard c),
      fun c hc => hcs c ((List.takeWhile_prefix _).subset hc), rfl⟩
  · rw [if_neg hw]
    exact ⟨cs, hcs, hp⟩

/-- C2.  Every entry `d` of the macOS read-deny list contributes a
`file-read*` deny rule on its normalized form, and `file-write-unlink` deny
rules on the pattern's literal base, on the root `/`, and on every canonical
ancestor directory of that base. -/
theorem c2_macos_read_deny_ancestors (denyOnly : List String) (d : String)
    (hd : d ∈ denyOnly) :
    SbRule.readDeny (normalizePathForSandbox d) ∈ macReadDenyRules denyOnly ∧
    SbRule.unlinkDeny (globBase (normalizePathForSandbox d)) ∈
      macReadDenyRules denyOnly ∧
    SbRule.unlinkDeny "/" ∈ macReadDenyRules denyOnly ∧
    (∀ a, strStartsWith a "/" = true →
       strStartsWith (globBase (normalizePathForSandbox d)) (a ++ "/") = true →
       SbRule.unlinkDeny a ∈ macReadDenyRules denyOnly) := by
  have hsub : ∀ x : SbRule,
      x ∈ SbRule.readDeny (normalizePathForSandbox d) ::
        (ancestorChainOf (globBase (normalizePathForSandbox d))).map
          SbRule.unlinkDeny →
      x ∈ macReadDenyRules denyOnly := by
    intro x hx
    exact List.mem_flatMap.mpr ⟨d, hd, by simpa using hx⟩
  obtain ⟨ds, hds, hb⟩ := globBase_canon d
  refine ⟨hsub _ (by simp), ?_, ?_, ?_⟩
  · apply hsub
    apply List.mem_cons_of_mem
    apply List.mem_map_of_mem
    rw [hb]
    have h2 := ancestorChain_mem ds hds ds.length (Nat.le_refl _)
    rwa [List.take_of_length_le (Nat.le_refl _)] at h2
  · apply hsub
    apply List.mem_cons_of_mem
    apply List.mem_map_of_mem
    rw [hb]
    have h2 := ancestorChain_mem ds hds 0 (Nat.zero_le _)
    rwa [List.take_zero] at h2
  · intro a ha hpre
    apply hsub
    apply List.mem_cons_of_mem
    apply List.mem_map_of_mem
    rw [hb] at hpre ⊢
    obtain ⟨k, hk0, hkle, hkeq⟩ := canon_prefix_decomp ds hds a hpre ha
    rw [hkeq]
    exact ancestorChain_mem ds hds k hkle

/-- Witness for C2 at the concrete entry `/etc/secret`: the read rule, the
root unlink rule and the `/etc` ancestor unlink rule are all present. -/
theorem c2_macos_read_deny_ancestors_witness :
    SbRule.readDeny (normalizePathForSandbox "/etc/secret") ∈
      macReadDenyRules ["/etc/secret"] ∧
    SbRule.unlinkDeny "/" ∈ macReadDenyRules ["/etc/secret"] ∧
    SbRule.unlinkDeny "/etc" ∈ macReadDenyRules ["/etc/secret"] :=
  have h := c2_macos_read_deny_ancestors ["/etc/secret"] "/etc/secret" (by decide)
  ⟨h.1, h.2.2.1, h.2.2.2 "/etc" (by decide) (by decide)⟩
